import Mathlib

/-!
# Verification of the `identity_conversion` lint pass

Shallow embedding of `src/clippy_lints/src/identity_conversion.rs`: the
expression shapes the pass inspects, the conversion rule tables, the
`check_expr` / `check_expr_post` visitor callbacks, and the pre-order /
post-order traversal that drives them.  The host compiler's oracles
(type equality, definition resolution, macro-origin test, snippet
extraction) are modelled as an abstract read-only `Context` of functions,
exactly the collaborators the pass consumes.
-/

/-- Stable identifier of an expression node (`syntax::ast::NodeId`). -/
abbrev NodeId := Nat

/-- Source span of a node, only ever passed to the host's oracles. -/
abbrev Span := Nat

/-- Post-inference type, opaque to the pass; only `same_tys` inspects it. -/
abbrev Ty := Nat

/-- Resolved definition id (`DefId`). -/
abbrev DefId := Nat

/-- HIR-level id used by `resolve_node` (`path.hir_id`). -/
abbrev HirId := Nat

/-- Path to a callee in a qualified call (`hir::QPath`): either a fully
resolved path with its segments, or a type-relative method segment. -/
inductive QPath : Type where
  | resolved (segments : List String)
  | typeRelative (seg : String)
  deriving DecidableEq

/-- Origin tag of a `match` (`hir::MatchSource`); the pass only
distinguishes the error-propagation desugaring from everything else. -/
inductive MatchSource : Type where
  | TryDesugar
  | normal
  deriving DecidableEq

mutual
/-- Expression nodes (`hir::Expr`), restricted to the shapes the pass
pattern-matches on; every other expression falls under `other`, kept with
its children so the traversal still walks them.  Match arms are
represented by their body expression (`arm.body`), the only component the
pass reads.  Nested lists are the mutual type `ExprList` and the optional
payload of `ExprRet`/`ExprBreak` is the mutual type `OptExpr`, so that all
recursion over trees is structural. -/
inductive Expr : Type where
  | match_ (id : NodeId) (span : Span) (scrut : Expr) (arms : ExprList) (src : MatchSource)
  | methodCall (id : NodeId) (span : Span) (name : String) (args : ExprList)
  | call (id : NodeId) (span : Span) (callee : Expr) (args : ExprList)
  | ret (id : NodeId) (span : Span) (arg : OptExpr)
  | break_ (id : NodeId) (span : Span) (arg : OptExpr)
  | path (id : NodeId) (span : Span) (q : QPath) (hirId : HirId)
  | other (id : NodeId) (span : Span) (children : ExprList)

/-- List of expressions (argument lists, arm bodies, generic children). -/
inductive ExprList : Type where
  | nil
  | cons (head : Expr) (tail : ExprList)

/-- Optional expression (`Option<P<Expr>>` payload of return / break). -/
inductive OptExpr : Type where
  | noneE
  | someE (e : Expr)
end

/-- Node id of an expression (`e.id`). -/
def Expr.id : Expr → NodeId
  | .match_ i _ _ _ _ => i
  | .methodCall i _ _ _ => i
  | .call i _ _ _ => i
  | .ret i _ _ => i
  | .break_ i _ _ => i
  | .path i _ _ _ => i
  | .other i _ _ => i

/-- Source span of an expression (`e.span`). -/
def Expr.span : Expr → Span
  | .match_ _ s _ _ _ => s
  | .methodCall _ s _ _ => s
  | .call _ s _ _ => s
  | .ret _ s _ => s
  | .break_ _ s _ => s
  | .path _ s _ _ => s
  | .other _ s _ => s

/-- First element of an expression list, `None` when empty; stands for the
partial Rust indexings `arms[0]` and `args[0]`, which panic on an empty
sequence (modelled as `none` propagating to an aborted traversal). -/
def ExprList.headE : ExprList → Option Expr
  | .nil => none
  | .cons e _ => some e

/-- Emptiness test for an expression list. -/
def ExprList.isNil : ExprList → Bool
  | .nil => true
  | .cons _ _ => false

/-- Read-only analysis context borrowed from the host for the duration of
one traversal: macro-origin test (`in_macro`), per-node inferred type
lookup (`cx.tables.expr_ty`), the type equality oracle (`same_tys`), the
trait-dispatch test (`match_trait_method`), callee resolution
(`opt_def_id ∘ resolve_node`), the definition-path test (`match_def_path`)
and source snippet extraction with a default (`snippet`). -/
structure Context : Type where
  fromExpansion : Span → Bool
  expr_ty : NodeId → Ty
  same_tys : Ty → Ty → Bool
  match_trait_method : NodeId → List String → Bool
  resolve : QPath → HirId → Option DefId
  match_def_path : DefId → List String → Bool
  snippet : Span → String → String

/-- One emitted diagnostic: lint span and message from
`span_lint_and_then`, suggestion span, suggestion label and replacement
text from `db.span_suggestion`. -/
structure Diagnostic : Type where
  span : Span
  message : String
  suggSpan : Span
  suggMsg : String
  replacement : String
  deriving DecidableEq

namespace paths

/-- Modelled from the spec: the tracked conversion interface family.  The
interface paths live in the host utility module `utils::paths`, which is
not part of this repository slice; the spec describes them as constant
ordered sequences of namespace segments naming `Into`, `From`, `AsRef`,
`AsMut`, `Borrow`, `BorrowMut` and `Iterator`. -/
def INTO : List String := ["core", "convert", "Into"]

/-- Modelled from the spec: path of the `From` interface (see `INTO`). -/
def FROM_TRAIT : List String := ["core", "convert", "From"]

/-- Modelled from the spec: path of the `AsRef` interface (see `INTO`). -/
def ASREF_TRAIT : List String := ["core", "convert", "AsRef"]

/-- Modelled from the spec: path of the `AsMut` interface (see `INTO`). -/
def ASMUT_TRAIT : List String := ["core", "convert", "AsMut"]

/-- Modelled from the spec: path of the `Borrow` interface (see `INTO`). -/
def BORROW_TRAIT : List String := ["core", "borrow", "Borrow"]

/-- Modelled from the spec: path of `BorrowMut` (see `INTO`). -/
def BORROW_MUT_TRAIT : List String := ["core", "borrow", "BorrowMut"]

/-- Modelled from the spec: path of `Iterator` (see `INTO`). -/
def ITERATOR : List String := ["core", "iter", "iterator", "Iterator"]

end paths

/-- The method-call rule table `REDUNDANT_METHOD`: pairs of tracked
interface path and method name, in source order. -/
def REDUNDANT_METHOD : List (List String × String) :=
  [(paths.INTO, "into"),
   (paths.ASREF_TRAIT, "as_ref"),
   (paths.ASMUT_TRAIT, "as_mut"),
   (paths.BORROW_TRAIT, "borrow"),
   (paths.BORROW_MUT_TRAIT, "borrow_mut"),
   (paths.ITERATOR, "by_ref")]

/-- The static-factory rule table `REDUNDANT_STATIC_METHOD`. -/
def REDUNDANT_STATIC_METHOD : List (List String × String) :=
  [(paths.FROM_TRAIT, "from")]

/-- Method name used at a qualified call site: last segment of a resolved
path (`path.segments.last().unwrap().name`, `none` recording the panic on
an empty segment list) or the type-relative segment (`seg.name`). -/
def QPath.methodName : QPath → Option String
  | .resolved segs => segs.getLast?
  | .typeRelative seg => some seg

/-- One iteration of the `REDUNDANT_METHOD` loop in the method-call arm of
`check_expr`: guard `match_trait_method(cx, e, trait_) && name == method`,
then compare the inferred types of the whole expression and of `args[0]`,
and emit the "identical conversion" diagnostic when they are equal.
Returns `none` exactly where the Rust code would panic (`args[0]` on an
empty argument list). -/
def methodRule (cx : Context) (eid : NodeId) (espan : Span) (name : String)
    (args : ExprList) (tr : List String) (method : String) :
    Option (List Diagnostic) :=
  if cx.match_trait_method eid tr && (name == method) then
    match args.headE with
    | none => none
    | some a0 =>
      if cx.same_tys (cx.expr_ty eid) (cx.expr_ty a0.id) then
        some [⟨espan, "identical conversion", espan,
               "consider removing `." ++ method ++ "()`",
               cx.snippet a0.span "<expr>"⟩]
      else some []
  else some []

/-- The full `REDUNDANT_METHOD` loop: diagnostics of every rule, in table
order (the Rust loop does not break after a match). -/
def collectMethod (cx : Context) (eid : NodeId) (espan : Span) (name : String)
    (args : ExprList) : List (List String × String) → Option (List Diagnostic)
  | [] => some []
  | (tr, m) :: rs => do
    let d ← methodRule cx eid espan name args tr m
    let ds ← collectMethod cx eid espan name args rs
    pure (d ++ ds)

/-- One iteration of the chained rule loop in the qualified-call arm of
`check_expr`: guard `match_def_path(tcx, def_id, trait_)`, extract the
call-site method name from the `QPath` (panicking on an empty resolved
path, modelled as `none`), compare it with the rule's method name, then
compare inferred types and emit the diagnostic, whose suggestion label
quotes the snippet of the callee path with the default
`"<last path segment>::<method>"` (`trait_.last().unwrap()`, again `none`
on the impossible empty constant path). -/
def staticRule (cx : Context) (eid : NodeId) (espan : Span) (calleeSpan : Span)
    (q : QPath) (args : ExprList) (d : DefId) (tr : List String)
    (method : String) : Option (List Diagnostic) :=
  if cx.match_def_path d tr then
    match q.methodName with
    | none => none
    | some mname =>
      if mname == method then
        match args.headE with
        | none => none
        | some a0 =>
          if cx.same_tys (cx.expr_ty eid) (cx.expr_ty a0.id) then
            match tr.getLast? with
            | none => none
            | some seg =>
              some [⟨espan, "identical conversion", espan,
                     "consider removing `" ++
                       cx.snippet calleeSpan (seg ++ "::" ++ method) ++ "()`",
                     cx.snippet a0.span "<expr>"⟩]
          else some []
      else some []
  else some []

/-- The chained loop `REDUNDANT_STATIC_METHOD.iter().chain(REDUNDANT_METHOD)`
of the qualified-call arm, in order. -/
def collectStatic (cx : Context) (eid : NodeId) (espan : Span)
    (calleeSpan : Span) (q : QPath) (args : ExprList) (d : DefId) :
    List (List String × String) → Option (List Diagnostic)
  | [] => some []
  | (tr, m) :: rs => do
    let d1 ← staticRule cx eid espan calleeSpan q args d tr m
    let ds ← collectStatic cx eid espan calleeSpan q args d rs
    pure (d1 ++ ds)

/-- The pre-order enter callback `check_expr` of the pass.  Input: the
suppression stack `try_desugar_arm` (top = list head, matching the `Vec`'s
`last`) and the node.  Output: the new stack and the diagnostics emitted
at this node, or `none` where the Rust code would panic.  Mirrors the
source exactly: the macro-origin early return, the suppressed-node early
return (which does NOT pop), the `TryDesugar` push of `args[0].id`, the
method-call rule loop and the qualified-call chained rule loop. -/
def check_expr (cx : Context) (st : List NodeId) (e : Expr) :
    Option (List NodeId × List Diagnostic) :=
  if cx.fromExpansion e.span then some (st, [])
  else if st.head? = some e.id then some (st, [])
  else
    match e with
    | .match_ _ _ _ arms .TryDesugar =>
      match arms.headE with
      | none => none
      | some armBody =>
        match armBody with
        | .ret _ _ (.someE inner) | .break_ _ _ (.someE inner) =>
          match inner with
          | .call _ _ _ cargs =>
            match cargs.headE with
            | none => none
            | some a0 => some (a0.id :: st, [])
          | _ => some (st, [])
        | _ => some (st, [])
    | .methodCall i sp name args =>
      match collectMethod cx i sp name args REDUNDANT_METHOD with
      | none => none
      | some ds => some (st, ds)
    | .call i sp callee args =>
      match callee with
      | .path _ psp q hirId =>
        match cx.resolve q hirId with
        | none => some (st, [])
        | some d =>
          match collectStatic cx i sp psp q args d
              (REDUNDANT_STATIC_METHOD ++ REDUNDANT_METHOD) with
          | none => none
          | some ds => some (st, ds)
      | _ => some (st, [])
    | _ => some (st, [])

/-- The post-order exit callback `check_expr_post`: pop the suppression
stack when the exiting node's id is on top. -/
def check_expr_post (st : List NodeId) (e : Expr) : List NodeId :=
  if st.head? = some e.id then st.tail else st

/-- Immediate children of a node, in the host visitor's walk order
(scrutinee before arms, callee before arguments).  The traversal visits
every child even when the enter callback returned early: the early
returns of `check_expr` skip the analysis of one node, never its
subtree. -/
def kids : Expr → ExprList
  | .match_ _ _ scrut arms _ => .cons scrut arms
  | .methodCall _ _ _ args => args
  | .call _ _ callee args => .cons callee args
  | .ret _ _ (.someE x) => .cons x .nil
  | .ret _ _ .noneE => .nil
  | .break_ _ _ (.someE x) => .cons x .nil
  | .break_ _ _ .noneE => .nil
  | .path _ _ _ _ => .nil
  | .other _ _ es => es

mutual
/-- One complete traversal of a subtree: pre-order `check_expr`, then the
children left to right, then post-order `check_expr_post`.  Threads the
suppression stack and accumulates emitted diagnostics in traversal order;
`none` when an enter callback panicked, modelling an aborted run. -/
def runExpr (cx : Context) (st : List NodeId) :
    Expr → Option (List NodeId × List Diagnostic)
  | .match_ i sp scrut arms src => do
    let (st1, ds1) ← check_expr cx st (.match_ i sp scrut arms src)
    let (st2, ds2) ← runExpr cx st1 scrut
    let (st3, ds3) ← runList cx st2 arms
    pure (check_expr_post st3 (.match_ i sp scrut arms src), ds1 ++ (ds2 ++ ds3))
  | .methodCall i sp name args => do
    let (st1, ds1) ← check_expr cx st (.methodCall i sp name args)
    let (st2, ds2) ← runList cx st1 args
    pure (check_expr_post st2 (.methodCall i sp name args), ds1 ++ ds2)
  | .call i sp callee args => do
    let (st1, ds1) ← check_expr cx st (.call i sp callee args)
    let (st2, ds2) ← runExpr cx st1 callee
    let (st3, ds3) ← runList cx st2 args
    pure (check_expr_post st3 (.call i sp callee args), ds1 ++ (ds2 ++ ds3))
  | .ret i sp (.someE x) => do
    let (st1, ds1) ← check_expr cx st (.ret i sp (.someE x))
    let (st2, ds2) ← runExpr cx st1 x
    pure (check_expr_post st2 (.ret i sp (.someE x)), ds1 ++ (ds2 ++ []))
  | .ret i sp .noneE => do
    let (st1, ds1) ← check_expr cx st (.ret i sp .noneE)
    pure (check_expr_post st1 (.ret i sp .noneE), ds1 ++ [])
  | .break_ i sp (.someE x) => do
    let (st1, ds1) ← check_expr cx st (.break_ i sp (.someE x))
    let (st2, ds2) ← runExpr cx st1 x
    pure (check_expr_post st2 (.break_ i sp (.someE x)), ds1 ++ (ds2 ++ []))
  | .break_ i sp .noneE => do
    let (st1, ds1) ← check_expr cx st (.break_ i sp .noneE)
    pure (check_expr_post st1 (.break_ i sp .noneE), ds1 ++ [])
  | .path i sp q h => do
    let (st1, ds1) ← check_expr cx st (.path i sp q h)
    pure (check_expr_post st1 (.path i sp q h), ds1 ++ [])
  | .other i sp es => do
    let (st1, ds1) ← check_expr cx st (.other i sp es)
    let (st2, ds2) ← runList cx st1 es
    pure (check_expr_post st2 (.other i sp es), ds1 ++ ds2)

/-- Traversal of a sequence of sibling subtrees, left to right. -/
def runList (cx : Context) (st : List NodeId) :
    ExprList → Option (List NodeId × List Diagnostic)
  | .nil => some (st, [])
  | .cons e es => do
    let (st1, ds1) ← runExpr cx st e
    let (st2, ds2) ← runList cx st1 es
    pure (st2, ds1 ++ ds2)
end

mutual
/-- All node ids of a subtree: root first, then the children's ids in
walk order. -/
def ids : Expr → List NodeId
  | .match_ i _ scrut arms _ => i :: (ids scrut ++ idsL arms)
  | .methodCall i _ _ args => i :: idsL args
  | .call i _ callee args => i :: (ids callee ++ idsL args)
  | .ret i _ (.someE x) => i :: (ids x ++ [])
  | .ret i _ .noneE => i :: []
  | .break_ i _ (.someE x) => i :: (ids x ++ [])
  | .break_ i _ .noneE => i :: []
  | .path i _ _ _ => i :: []
  | .other i _ es => i :: idsL es

/-- Node ids of a sequence of subtrees. -/
def idsL : ExprList → List NodeId
  | .nil => []
  | .cons e es => ids e ++ idsL es
end

mutual
/-- All subexpressions of a subtree, the root included. -/
def subexprs : Expr → List Expr
  | .match_ i sp scrut arms src =>
    .match_ i sp scrut arms src :: (subexprs scrut ++ subL arms)
  | .methodCall i sp name args => .methodCall i sp name args :: subL args
  | .call i sp callee args =>
    .call i sp callee args :: (subexprs callee ++ subL args)
  | .ret i sp (.someE x) => .ret i sp (.someE x) :: (subexprs x ++ [])
  | .ret i sp .noneE => [.ret i sp .noneE]
  | .break_ i sp (.someE x) => .break_ i sp (.someE x) :: (subexprs x ++ [])
  | .break_ i sp .noneE => [.break_ i sp .noneE]
  | .path i sp q h => [.path i sp q h]
  | .other i sp es => .other i sp es :: subL es

/-- Subexpressions of a sequence of subtrees. -/
def subL : ExprList → List Expr
  | .nil => []
  | .cons e es => subexprs e ++ subL es
end

/-- Spans of all nodes of a subtree. -/
def spans (e : Expr) : List Span := (subexprs e).map Expr.span

/-- Test for the match shape (`ExprMatch`), any source. -/
def isMatchNode : Expr → Bool
  | .match_ _ _ _ _ _ => true
  | _ => false


/-- A rule of the chained qualified-call loop applies to a resolved callee:
the definition path matches the interface and the call-site method name
matches the rule's method name. -/
def ruleHit (cx : Context) (q : QPath) (d : DefId) (r : List String × String) : Bool :=
  cx.match_def_path d r.1 && (q.methodName == some r.2)

/-- Local well-formedness of one node, the conditions rustc guarantees for
every HIR tree and under which the partial accesses of `check_expr` cannot
panic: a `TryDesugar` match has a first arm, and when that arm wraps a
call its argument list is non-empty; a method call has its receiver in
`args`; a qualified call whose callee resolves and hits a rule (which
requires arity one on the tracked conversion) has a first argument, and a
resolved callee path has at least one segment. -/
def wfLocal (cx : Context) : Expr → Bool
  | .match_ _ _ _ arms .TryDesugar =>
    match arms.headE with
    | none => false
    | some armBody =>
      match armBody with
      | .ret _ _ (.someE (.call _ _ _ cargs)) => !cargs.isNil
      | .break_ _ _ (.someE (.call _ _ _ cargs)) => !cargs.isNil
      | _ => true
  | .match_ _ _ _ _ .normal => true
  | .methodCall _ _ _ args => !args.isNil
  | .call _ _ (.path _ _ q h) args =>
    (match q with
     | .resolved segs => !segs.isEmpty
     | .typeRelative _ => true) &&
    (match cx.resolve q h with
     | none => true
     | some d =>
       ((REDUNDANT_STATIC_METHOD ++ REDUNDANT_METHOD).all
          fun r => !(ruleHit cx q d r)) || !args.isNil)
  | _ => true

mutual
/-- Well-formedness of a whole tree: `wfLocal` at every node. -/
def wf (cx : Context) : Expr → Bool
  | .match_ i sp scrut arms src =>
    wfLocal cx (.match_ i sp scrut arms src) && (wf cx scrut && wfL cx arms)
  | .methodCall i sp name args =>
    wfLocal cx (.methodCall i sp name args) && wfL cx args
  | .call i sp callee args =>
    wfLocal cx (.call i sp callee args) && (wf cx callee && wfL cx args)
  | .ret i sp (.someE x) =>
    wfLocal cx (.ret i sp (.someE x)) && (wf cx x && true)
  | .ret i sp .noneE => wfLocal cx (.ret i sp .noneE) && true
  | .break_ i sp (.someE x) =>
    wfLocal cx (.break_ i sp (.someE x)) && (wf cx x && true)
  | .break_ i sp .noneE => wfLocal cx (.break_ i sp .noneE) && true
  | .path i sp q h => wfLocal cx (.path i sp q h) && true
  | .other i sp es => wfLocal cx (.other i sp es) && wfL cx es

/-- Well-formedness of a sequence of subtrees. -/
def wfL (cx : Context) : ExprList → Bool
  | .nil => true
  | .cons e es => wf cx e && wfL cx es
end

theorem ids_eq (e : Expr) : ids e = e.id :: idsL (kids e) := by
  cases e with
  | ret i sp arg => cases arg <;> rfl
  | break_ i sp arg => cases arg <;> rfl
  | match_ i sp scrut arms src => rfl
  | methodCall i sp name args => rfl
  | call i sp callee args => rfl
  | path i sp q h => rfl
  | other i sp es => rfl

theorem subexprs_eq (e : Expr) : subexprs e = e :: subL (kids e) := by
  cases e with
  | ret i sp arg => cases arg <;> rfl
  | break_ i sp arg => cases arg <;> rfl
  | match_ i sp scrut arms src => rfl
  | methodCall i sp name args => rfl
  | call i sp callee args => rfl
  | path i sp q h => rfl
  | other i sp es => rfl

theorem wf_eq (cx : Context) (e : Expr) :
    wf cx e = (wfLocal cx e && wfL cx (kids e)) := by
  cases e with
  | ret i sp arg => cases arg <;> rfl
  | break_ i sp arg => cases arg <;> rfl
  | match_ i sp scrut arms src => rfl
  | methodCall i sp name args => rfl
  | call i sp callee args => rfl
  | path i sp q h => rfl
  | other i sp es => rfl

theorem runExpr_eq (cx : Context) (st : List NodeId) (e : Expr) :
    runExpr cx st e =
      match check_expr cx st e with
      | none => none
      | some (st1, ds1) =>
        match runList cx st1 (kids e) with
        | none => none
        | some (st2, ds2) => some (check_expr_post st2 e, ds1 ++ ds2) := by
  cases e with
  | match_ i sp scrut arms src =>
    simp only [runExpr, kids, runList]
    cases check_expr cx st (.match_ i sp scrut arms src) with
    | none => rfl
    | some p =>
      obtain ⟨st1, ds1⟩ := p
      simp only [Option.bind_eq_bind, Option.some_bind]
      cases runExpr cx st1 scrut with
      | none => rfl
      | some p2 =>
        obtain ⟨st2, ds2⟩ := p2
        simp only [Option.some_bind]
        cases runList cx st2 arms with
        | none => rfl
        | some p3 => obtain ⟨st3, ds3⟩ := p3; rfl
  | methodCall i sp name args =>
    simp only [runExpr, kids, runList]
    cases check_expr cx st (.methodCall i sp name args) with
    | none => rfl
    | some p =>
      obtain ⟨st1, ds1⟩ := p
      simp only [Option.bind_eq_bind, Option.some_bind]
      cases runList cx st1 args with
      | none => rfl
      | some p2 => obtain ⟨st2, ds2⟩ := p2; rfl
  | call i sp callee args =>
    simp only [runExpr, kids, runList]
    cases check_expr cx st (.call i sp callee args) with
    | none => rfl
    | some p =>
      obtain ⟨st1, ds1⟩ := p
      simp only [Option.bind_eq_bind, Option.some_bind]
      cases runExpr cx st1 callee with
      | none => rfl
      | some p2 =>
        obtain ⟨st2, ds2⟩ := p2
        simp only [Option.some_bind]
        cases runList cx st2 args with
        | none => rfl
        | some p3 => obtain ⟨st3, ds3⟩ := p3; rfl
  | ret i sp arg =>
    cases arg with
    | noneE =>
      simp only [runExpr, kids, runList]
      cases check_expr cx st (.ret i sp .noneE) with
      | none => rfl
      | some p =>
        obtain ⟨st1, ds1⟩ := p
        simp only [Option.bind_eq_bind, Option.some_bind]
        rfl
    | someE x =>
      simp only [runExpr, kids, runList]
      cases check_expr cx st (.ret i sp (.someE x)) with
      | none => rfl
      | some p =>
        obtain ⟨st1, ds1⟩ := p
        simp only [Option.bind_eq_bind, Option.some_bind]
        cases runExpr cx st1 x with
        | none => rfl
        | some p2 => obtain ⟨st2, ds2⟩ := p2; rfl
  | break_ i sp arg =>
    cases arg with
    | noneE =>
      simp only [runExpr, kids, runList]
      cases check_expr cx st (.break_ i sp .noneE) with
      | none => rfl
      | some p =>
        obtain ⟨st1, ds1⟩ := p
        simp only [Option.bind_eq_bind, Option.some_bind]
        rfl
    | someE x =>
      simp only [runExpr, kids, runList]
      cases check_expr cx st (.break_ i sp (.someE x)) with
      | none => rfl
      | some p =>
        obtain ⟨st1, ds1⟩ := p
        simp only [Option.bind_eq_bind, Option.some_bind]
        cases runExpr cx st1 x with
        | none => rfl
        | some p2 => obtain ⟨st2, ds2⟩ := p2; rfl
  | path i sp q h =>
    simp only [runExpr, kids, runList]
    cases check_expr cx st (.path i sp q h) with
    | none => rfl
    | some p =>
      obtain ⟨st1, ds1⟩ := p
      simp only [Option.bind_eq_bind, Option.some_bind]
      rfl
  | other i sp es =>
    simp only [runExpr, kids, runList]
    cases check_expr cx st (.other i sp es) with
    | none => rfl
    | some p =>
      obtain ⟨st1, ds1⟩ := p
      simp only [Option.bind_eq_bind, Option.some_bind]
      cases runList cx st1 es with
      | none => rfl
      | some p2 => obtain ⟨st2, ds2⟩ := p2; rfl

theorem idsL_cons (e : Expr) (es : ExprList) :
    idsL (.cons e es) = ids e ++ idsL es := rfl

theorem subL_cons (e : Expr) (es : ExprList) :
    subL (.cons e es) = subexprs e ++ subL es := rfl

theorem mem_ids_self (e : Expr) : e.id ∈ ids e := by
  rw [ids_eq]; exact List.mem_cons_self _ _

theorem mem_subexprs_self (e : Expr) : e ∈ subexprs e := by
  rw [subexprs_eq]; exact List.mem_cons_self _ _

/-- The ids of a subexpression are among the ids of the enclosing tree. -/
def SubIdsE (e : Expr) : Prop :=
  ∀ m ∈ subexprs e, ∀ a ∈ ids m, a ∈ ids e

/-- List form of `SubIdsE`. -/
def SubIdsL (es : ExprList) : Prop :=
  ∀ m ∈ subL es, ∀ a ∈ ids m, a ∈ idsL es

theorem subIds_nil : SubIdsL .nil := by
  intro m hm
  simp [subL] at hm

theorem subIds_cons {e : Expr} {es : ExprList} (he : SubIdsE e)
    (hes : SubIdsL es) : SubIdsL (.cons e es) := by
  intro m hm a ha
  rw [subL_cons, List.mem_append] at hm
  rw [idsL_cons, List.mem_append]
  rcases hm with hm | hm
  · exact Or.inl (he m hm a ha)
  · exact Or.inr (hes m hm a ha)

theorem subIds_node {e : Expr} (h : SubIdsL (kids e)) : SubIdsE e := by
  intro m hm a ha
  rw [subexprs_eq] at hm
  rw [ids_eq]
  rcases List.mem_cons.mp hm with hm | hm
  · subst hm; rw [ids_eq] at ha; exact ha
  · exact List.mem_cons_of_mem _ (h m hm a ha)

mutual
theorem subIdsE : ∀ e : Expr, SubIdsE e
  | .match_ _ _ scrut arms _ =>
    subIds_node (subIds_cons (subIdsE scrut) (subIdsL arms))
  | .methodCall _ _ _ args => subIds_node (subIdsL args)
  | .call _ _ callee args =>
    subIds_node (subIds_cons (subIdsE callee) (subIdsL args))
  | .ret _ _ (.someE x) => subIds_node (subIds_cons (subIdsE x) subIds_nil)
  | .ret _ _ .noneE => subIds_node subIds_nil
  | .break_ _ _ (.someE x) => subIds_node (subIds_cons (subIdsE x) subIds_nil)
  | .break_ _ _ .noneE => subIds_node subIds_nil
  | .path _ _ _ _ => subIds_node subIds_nil
  | .other _ _ es => subIds_node (subIdsL es)

theorem subIdsL : ∀ es : ExprList, SubIdsL es
  | .nil => subIds_nil
  | .cons e es => subIds_cons (subIdsE e) (subIdsL es)
end

/-- No match node occurring in `e` strictly encloses the node with id `t`:
the key structural fact behind suppression-stack balance — a pushed id
(the first argument of the call wrapped by the desugar arm) has only a
return/break node and a call node above it inside the pushing match. -/
def NoMatchAbove (t : NodeId) (e : Expr) : Prop :=
  ∀ m ∈ subexprs e, isMatchNode m = true → t ∉ idsL (kids m)

/-- List form of `NoMatchAbove`. -/
def NoMatchAboveL (t : NodeId) (es : ExprList) : Prop :=
  ∀ m ∈ subL es, isMatchNode m = true → t ∉ idsL (kids m)

theorem noMatchAboveL_of_node {t : NodeId} {e : Expr} (h : NoMatchAbove t e) :
    NoMatchAboveL t (kids e) := by
  intro m hm
  refine h m ?_
  rw [subexprs_eq]
  exact List.mem_cons_of_mem _ hm

theorem noMatchAbove_of_consL {t : NodeId} {e : Expr} {es : ExprList}
    (h : NoMatchAboveL t (.cons e es)) : NoMatchAbove t e := by
  intro m hm
  refine h m ?_
  rw [subL_cons, List.mem_append]
  exact Or.inl hm

theorem noMatchAboveL_of_consL {t : NodeId} {e : Expr} {es : ExprList}
    (h : NoMatchAboveL t (.cons e es)) : NoMatchAboveL t es := by
  intro m hm
  refine h m ?_
  rw [subL_cons, List.mem_append]
  exact Or.inr hm

theorem not_kid_of_noMatchAbove {t : NodeId} {e : Expr}
    (h : NoMatchAbove t e) (hm : isMatchNode e = true) :
    t ∉ idsL (kids e) :=
  h e (mem_subexprs_self e) hm

theorem check_expr_expansion {cx : Context} {st : List NodeId} {e : Expr}
    (h : cx.fromExpansion e.span = true) :
    check_expr cx st e = some (st, []) := by
  simp [check_expr, h]

theorem check_expr_skip {cx : Context} {st : List NodeId} {e : Expr}
    (h : st.head? = some e.id) :
    check_expr cx st e = some (st, []) := by
  unfold check_expr
  cases hm : cx.fromExpansion e.span <;> simp [hm, h]

theorem mem_ids_of_mem_kids {a : NodeId} {m : Expr}
    (h : a ∈ idsL (kids m)) : a ∈ ids m := by
  rw [ids_eq]; exact List.mem_cons_of_mem _ h

theorem mem_ids_call_head {k ksp : Nat} {f a0 : Expr} {rest : ExprList} :
    a0.id ∈ ids (Expr.call k ksp f (.cons a0 rest)) := by
  have h1 : a0.id ∈ ids a0 ++ idsL rest :=
    List.mem_append_left _ (mem_ids_self a0)
  have h2 : a0.id ∈ ids f ++ (ids a0 ++ idsL rest) :=
    List.mem_append_right _ h1
  exact List.mem_cons_of_mem _ h2

/-- Inside a call node, no match node strictly encloses the first
argument's root id, provided the call's ids are distinct: the only nodes
enclosing it are the call itself and nodes of the argument's own subtree,
whose child-ids cannot repeat the argument's root id. -/
theorem noMatchAbove_call {k ksp : Nat} {f a0 : Expr} {rest : ExprList}
    (hnd : (ids (Expr.call k ksp f (.cons a0 rest))).Nodup) :
    NoMatchAbove a0.id (.call k ksp f (.cons a0 rest)) := by
  have hnd' : (ids f ++ (ids a0 ++ idsL rest)).Nodup :=
    (List.nodup_cons.mp hnd).2
  obtain ⟨hf, h3, hdisj⟩ := List.nodup_append.mp hnd'
  obtain ⟨ha0, hrest, hdisj2⟩ := List.nodup_append.mp h3
  have hnotf : a0.id ∉ ids f :=
    List.disjoint_right.mp hdisj (List.mem_append_left _ (mem_ids_self a0))
  have hnotrest : a0.id ∉ idsL rest :=
    List.disjoint_left.mp hdisj2 (mem_ids_self a0)
  have hnotkid : a0.id ∉ idsL (kids a0) := by
    rw [ids_eq] at ha0
    exact (List.nodup_cons.mp ha0).1
  intro m hm hmatch
  rw [subexprs_eq] at hm
  rcases List.mem_cons.mp hm with hm | hm
  · subst hm; simp [isMatchNode] at hmatch
  · rw [show kids (Expr.call k ksp f (.cons a0 rest)) = .cons f (.cons a0 rest) from rfl,
      subL_cons, List.mem_append] at hm
    rcases hm with hm | hm
    · intro hin
      exact hnotf (subIdsE f m hm _ (mem_ids_of_mem_kids hin))
    · rw [subL_cons, List.mem_append] at hm
      rcases hm with hm | hm
      · rw [subexprs_eq] at hm
        rcases List.mem_cons.mp hm with hm | hm
        · subst hm; exact hnotkid
        · intro hin
          exact hnotkid (subIdsL (kids a0) m hm _ (mem_ids_of_mem_kids hin))
      · intro hin
        exact hnotrest (subIdsL rest m hm _ (mem_ids_of_mem_kids hin))

/-- `NoMatchAbove` for a desugar arm body of the return form. -/
theorem noMatchAbove_armRet {j jsp k ksp : Nat} {f a0 : Expr} {rest : ExprList}
    (hnd : (ids (Expr.ret j jsp (.someE (.call k ksp f (.cons a0 rest))))).Nodup) :
    NoMatchAbove a0.id (.ret j jsp (.someE (.call k ksp f (.cons a0 rest)))) := by
  have hnd2 : (ids (Expr.call k ksp f (.cons a0 rest))).Nodup := by
    have h1 : (ids (Expr.call k ksp f (.cons a0 rest)) ++ []).Nodup :=
      (List.nodup_cons.mp hnd).2
    simpa using h1
  intro m hm hmatch
  rw [subexprs_eq] at hm
  rcases List.mem_cons.mp hm with hm | hm
  · subst hm; simp [isMatchNode] at hmatch
  · rw [show kids (Expr.ret j jsp (.someE (.call k ksp f (.cons a0 rest)))) =
        .cons (.call k ksp f (.cons a0 rest)) .nil from rfl,
      subL_cons, List.mem_append] at hm
    rcases hm with hm | hm
    · exact noMatchAbove_call hnd2 m hm hmatch
    · simp [subL] at hm

/-- `NoMatchAbove` for a desugar arm body of the loop-break form. -/
theorem noMatchAbove_armBreak {j jsp k ksp : Nat} {f a0 : Expr} {rest : ExprList}
    (hnd : (ids (Expr.break_ j jsp (.someE (.call k ksp f (.cons a0 rest))))).Nodup) :
    NoMatchAbove a0.id (.break_ j jsp (.someE (.call k ksp f (.cons a0 rest)))) := by
  have hnd2 : (ids (Expr.call k ksp f (.cons a0 rest))).Nodup := by
    have h1 : (ids (Expr.call k ksp f (.cons a0 rest)) ++ []).Nodup :=
      (List.nodup_cons.mp hnd).2
    simpa using h1
  intro m hm hmatch
  rw [subexprs_eq] at hm
  rcases List.mem_cons.mp hm with hm | hm
  · subst hm; simp [isMatchNode] at hmatch
  · rw [show kids (Expr.break_ j jsp (.someE (.call k ksp f (.cons a0 rest)))) =
        .cons (.call k ksp f (.cons a0 rest)) .nil from rfl,
      subL_cons, List.mem_append] at hm
    rcases hm with hm | hm
    · exact noMatchAbove_call hnd2 m hm hmatch
    · simp [subL] at hm

theorem noMatchAboveL_matchKids {i sp : Nat} {src : MatchSource}
    {scrut armBody : Expr} {arms' : ExprList} {t : NodeId}
    (hnd : (ids (Expr.match_ i sp scrut (.cons armBody arms') src)).Nodup)
    (hmem : t ∈ ids armBody)
    (harm : NoMatchAbove t armBody) :
    NoMatchAboveL t (.cons scrut (.cons armBody arms')) := by
  have hnd' : (ids scrut ++ (ids armBody ++ idsL arms')).Nodup :=
    (List.nodup_cons.mp hnd).2
  obtain ⟨hs, h3, hdisjS⟩ := List.nodup_append.mp hnd'
  obtain ⟨hb, ha, hdisjB⟩ := List.nodup_append.mp h3
  have hnotS : t ∉ ids scrut :=
    List.disjoint_right.mp hdisjS (List.mem_append_left _ hmem)
  have hnotA : t ∉ idsL arms' := List.disjoint_left.mp hdisjB hmem
  intro m hm hmatch
  rw [subL_cons, List.mem_append] at hm
  rcases hm with hm | hm
  · intro hin
    exact hnotS (subIdsE scrut m hm _ (mem_ids_of_mem_kids hin))
  · rw [subL_cons, List.mem_append] at hm
    rcases hm with hm | hm
    · exact harm m hm hmatch
    · intro hin
      exact hnotA (subIdsL arms' m hm _ (mem_ids_of_mem_kids hin))

theorem mem_ids_armRet {j jsp k ksp : Nat} {f a0 : Expr} {rest : ExprList} :
    a0.id ∈ ids (Expr.ret j jsp (.someE (.call k ksp f (.cons a0 rest)))) := by
  have h1 : a0.id ∈ ids (Expr.call k ksp f (.cons a0 rest)) ++ [] :=
    List.mem_append_left _ mem_ids_call_head
  exact List.mem_cons_of_mem _ h1

theorem mem_ids_armBreak {j jsp k ksp : Nat} {f a0 : Expr} {rest : ExprList} :
    a0.id ∈ ids (Expr.break_ j jsp (.someE (.call k ksp f (.cons a0 rest)))) := by
  have h1 : a0.id ∈ ids (Expr.call k ksp f (.cons a0 rest)) ++ [] :=
    List.mem_append_left _ mem_ids_call_head
  exact List.mem_cons_of_mem _ h1

/-- Behaviour of the enter callback on the suppression stack: either it
leaves the stack unchanged, or the node is an error-propagation desugar
match of the recognized shape, no diagnostic is emitted, and the id of the
wrapped call's first argument — a node of one of the match's subtrees over
which no inner match sits — is pushed on top. -/
theorem check_expr_stack {cx : Context} {st st1 : List NodeId} {e : Expr}
    {ds1 : List Diagnostic}
    (h : check_expr cx st e = some (st1, ds1)) :
    st1 = st ∨ (ds1 = [] ∧ isMatchNode e = true ∧
      ∃ t, st1 = t :: st ∧ t ∈ idsL (kids e) ∧
        ((ids e).Nodup → NoMatchAboveL t (kids e))) := by
  by_cases hm : cx.fromExpansion e.span = true
  · rw [check_expr_expansion hm] at h
    simp at h
    exact Or.inl h.1.symm
  by_cases hs : st.head? = some e.id
  · rw [check_expr_skip hs] at h
    simp at h
    exact Or.inl h.1.symm
  rw [Bool.not_eq_true] at hm
  cases e with
  | match_ i sp scrut arms src =>
    simp only [Expr.span, Expr.id] at hm hs
    cases src with
    | normal =>
      simp [check_expr, hm, hs] at h
      exact Or.inl h.1.symm
    | TryDesugar =>
      simp only [check_expr, Expr.span, Expr.id, hm, Bool.false_eq_true,
        if_false, if_neg hs] at h
      cases arms with
      | nil => simp [ExprList.headE] at h
      | cons armBody arms' =>
        simp only [ExprList.headE] at h
        cases armBody with
        | ret j jsp arg =>
          cases arg with
          | noneE =>
            simp at h
            exact Or.inl h.1.symm
          | someE inner =>
            cases inner with
            | call k ksp f cargs =>
              cases cargs with
              | nil => simp [ExprList.headE] at h
              | cons a0 rest =>
                simp only [ExprList.headE] at h
                simp at h
                obtain ⟨h1, h2⟩ := h
                refine Or.inr ⟨?_, rfl, a0.id, ?_, ?_, ?_⟩
                · exact h2
                · exact h1.symm
                · exact List.mem_append_right _
                    (List.mem_append_left _ mem_ids_armRet)
                · intro hnd
                  exact noMatchAboveL_matchKids hnd mem_ids_armRet
                    (noMatchAbove_armRet (by
                      have := hnd
                      rw [show ids (Expr.match_ i sp scrut
                          (.cons (.ret j jsp (.someE (.call k ksp f (.cons a0 rest)))) arms')
                          .TryDesugar) =
                        i :: (ids scrut ++
                          (ids (Expr.ret j jsp (.someE (.call k ksp f (.cons a0 rest)))) ++
                            idsL arms')) from rfl] at this
                      have h2 := (List.nodup_cons.mp this).2
                      exact ((List.nodup_append.mp
                        ((List.nodup_append.mp h2).2.1)).1)))
            | match_ k2 ksp2 s2 a2 src2 => simp at h; exact Or.inl h.1.symm
            | methodCall k2 ksp2 n2 a2 => simp at h; exact Or.inl h.1.symm
            | ret k2 ksp2 a2 => simp at h; exact Or.inl h.1.symm
            | break_ k2 ksp2 a2 => simp at h; exact Or.inl h.1.symm
            | path k2 ksp2 q2 h2 => simp at h; exact Or.inl h.1.symm
            | other k2 ksp2 es2 => simp at h; exact Or.inl h.1.symm
        | break_ j jsp arg =>
          cases arg with
          | noneE =>
            simp at h
            exact Or.inl h.1.symm
          | someE inner =>
            cases inner with
            | call k ksp f cargs =>
              cases cargs with
              | nil => simp [ExprList.headE] at h
              | cons a0 rest =>
                simp only [ExprList.headE] at h
                simp at h
                obtain ⟨h1, h2⟩ := h
                refine Or.inr ⟨?_, rfl, a0.id, ?_, ?_, ?_⟩
                · exact h2
                · exact h1.symm
                · exact List.mem_append_right _
                    (List.mem_append_left _ mem_ids_armBreak)
                · intro hnd
                  exact noMatchAboveL_matchKids hnd mem_ids_armBreak
                    (noMatchAbove_armBreak (by
                      have := hnd
                      rw [show ids (Expr.match_ i sp scrut
                          (.cons (.break_ j jsp (.someE (.call k ksp f (.cons a0 rest)))) arms')
                          .TryDesugar) =
                        i :: (ids scrut ++
                          (ids (Expr.break_ j jsp (.someE (.call k ksp f (.cons a0 rest)))) ++
                            idsL arms')) from rfl] at this
                      have h2 := (List.nodup_cons.mp this).2
                      exact ((List.nodup_append.mp
                        ((List.nodup_append.mp h2).2.1)).1)))
            | match_ k2 ksp2 s2 a2 src2 => simp at h; exact Or.inl h.1.symm
            | methodCall k2 ksp2 n2 a2 => simp at h; exact Or.inl h.1.symm
            | ret k2 ksp2 a2 => simp at h; exact Or.inl h.1.symm
            | break_ k2 ksp2 a2 => simp at h; exact Or.inl h.1.symm
            | path k2 ksp2 q2 h2 => simp at h; exact Or.inl h.1.symm
            | other k2 ksp2 es2 => simp at h; exact Or.inl h.1.symm
        | match_ j jsp s2 a2 src2 => simp at h; exact Or.inl h.1.symm
        | methodCall j jsp n2 a2 => simp at h; exact Or.inl h.1.symm
        | call j jsp c2 a2 => simp at h; exact Or.inl h.1.symm
        | path j jsp q2 h2 => simp at h; exact Or.inl h.1.symm
        | other j jsp es2 => simp at h; exact Or.inl h.1.symm
  | methodCall i sp name args =>
    simp only [Expr.span, Expr.id] at hm hs
    simp only [check_expr, Expr.span, Expr.id, hm, Bool.false_eq_true,
      if_false, if_neg hs] at h
    cases hc : collectMethod cx i sp name args REDUNDANT_METHOD with
    | none => rw [hc] at h; simp at h
    | some ds => rw [hc] at h; simp at h; exact Or.inl h.1.symm
  | call i sp callee args =>
    simp only [Expr.span, Expr.id] at hm hs
    simp only [check_expr, Expr.span, Expr.id, hm, Bool.false_eq_true,
      if_false, if_neg hs] at h
    cases callee with
    | path pi psp q hirId =>
      have h' : (match cx.resolve q hirId with
          | none => some (st, [])
          | some d =>
            match collectStatic cx i sp psp q args d
                (REDUNDANT_STATIC_METHOD ++ REDUNDANT_METHOD) with
            | none => none
            | some ds => some (st, ds)) = some (st1, ds1) := h
      cases hr : cx.resolve q hirId with
      | none => rw [hr] at h'; simp at h'; exact Or.inl h'.1.symm
      | some d =>
        rw [hr] at h'
        have h2 : (match collectStatic cx i sp psp q args d
              (REDUNDANT_STATIC_METHOD ++ REDUNDANT_METHOD) with
            | none => none
            | some ds => some (st, ds)) = some (st1, ds1) := h'
        cases hc : collectStatic cx i sp psp q args d
            (REDUNDANT_STATIC_METHOD ++ REDUNDANT_METHOD) with
        | none => rw [hc] at h2; simp at h2
        | some ds => rw [hc] at h2; simp at h2; exact Or.inl h2.1.symm
    | match_ c1 c2 c3 c4 c5 => simp at h; exact Or.inl h.1.symm
    | methodCall c1 c2 c3 c4 => simp at h; exact Or.inl h.1.symm
    | call c1 c2 c3 c4 => simp at h; exact Or.inl h.1.symm
    | ret c1 c2 c3 => simp at h; exact Or.inl h.1.symm
    | break_ c1 c2 c3 => simp at h; exact Or.inl h.1.symm
    | other c1 c2 c3 => simp at h; exact Or.inl h.1.symm
  | ret i sp arg =>
    simp only [Expr.span, Expr.id] at hm hs
    cases arg <;> simp [check_expr, hm, hs] at h <;> exact Or.inl h.1.symm
  | break_ i sp arg =>
    simp only [Expr.span, Expr.id] at hm hs
    cases arg <;> simp [check_expr, hm, hs] at h <;> exact Or.inl h.1.symm
  | path i sp q hirId =>
    simp only [Expr.span, Expr.id] at hm hs
    simp [check_expr, hm, hs] at h
    exact Or.inl h.1.symm
  | other i sp es =>
    simp only [Expr.span, Expr.id] at hm hs
    simp [check_expr, hm, hs] at h
    exact Or.inl h.1.symm

theorem methodRule_total {cx : Context} {eid : NodeId} {espan : Span}
    {name : String} {args : ExprList} {tr : List String} {method : String}
    (ha : args.isNil = false) :
    ∃ d, methodRule cx eid espan name args tr method = some d := by
  unfold methodRule
  split
  · cases args with
    | nil => simp [ExprList.isNil] at ha
    | cons a0 rest =>
      simp only [ExprList.headE]
      split <;> exact ⟨_, rfl⟩
  · exact ⟨_, rfl⟩

theorem collectMethod_total {cx : Context} {eid : NodeId} {espan : Span}
    {name : String} {args : ExprList} (ha : args.isNil = false) :
    ∀ rs : List (List String × String),
      ∃ ds, collectMethod cx eid espan name args rs = some ds := by
  intro rs
  induction rs with
  | nil => exact ⟨[], rfl⟩
  | cons r rs ih =>
    obtain ⟨tr, m⟩ := r
    obtain ⟨d, hd⟩ := @methodRule_total cx eid espan name args tr m ha
    obtain ⟨ds, hds⟩ := ih
    exact ⟨d ++ ds, by simp [collectMethod, hd, hds]⟩

/-- Unfolding of `staticRule` once the call-site method name is known. -/
theorem staticRule_eq {cx : Context} {eid : NodeId} {espan : Span}
    {calleeSpan : Span} {q : QPath} {args : ExprList} {d : DefId}
    {tr : List String} {method : String} {mn : String}
    (hqn : q.methodName = some mn) :
    staticRule cx eid espan calleeSpan q args d tr method =
      if cx.match_def_path d tr then
        if mn == method then
          match args.headE with
          | none => none
          | some a0 =>
            if cx.same_tys (cx.expr_ty eid) (cx.expr_ty a0.id) then
              match tr.getLast? with
              | none => none
              | some seg =>
                some [⟨espan, "identical conversion", espan,
                       "consider removing `" ++
                         cx.snippet calleeSpan (seg ++ "::" ++ method) ++ "()`",
                       cx.snippet a0.span "<expr>"⟩]
            else some []
        else some []
      else some [] := by
  unfold staticRule
  rw [hqn]

theorem staticRule_total {cx : Context} {eid : NodeId} {espan : Span}
    {calleeSpan : Span} {q : QPath} {args : ExprList} {d : DefId}
    {tr : List String} {method : String} {mn : String}
    (hqn : q.methodName = some mn)
    (htr : tr ≠ [])
    (hargs : ruleHit cx q d (tr, method) = true → args.isNil = false) :
    ∃ ds, staticRule cx eid espan calleeSpan q args d tr method = some ds := by
  rw [staticRule_eq hqn]
  split
  · rename_i hdef
    split
    · rename_i hname
      have hhit : ruleHit cx q d (tr, method) = true := by
        simp only [ruleHit, hdef, hqn, Bool.true_and]
        simpa using hname
      have ha := hargs hhit
      cases args with
      | nil => simp [ExprList.isNil] at ha
      | cons a0 rest =>
        simp only [ExprList.headE]
        split
        · cases hlast : tr.getLast? with
          | none => exact absurd (List.getLast?_eq_none_iff.mp hlast) htr
          | some seg => exact ⟨_, rfl⟩
        · exact ⟨_, rfl⟩
    · exact ⟨_, rfl⟩
  · exact ⟨_, rfl⟩

theorem collectStatic_total {cx : Context} {eid : NodeId} {espan : Span}
    {calleeSpan : Span} {q : QPath} {args : ExprList} {d : DefId} {mn : String}
    (hqn : q.methodName = some mn) :
    ∀ rs : List (List String × String),
      (∀ r ∈ rs, r.1 ≠ []) →
      (∀ r ∈ rs, ruleHit cx q d r = true → args.isNil = false) →
      ∃ ds, collectStatic cx eid espan calleeSpan q args d rs = some ds := by
  intro rs
  induction rs with
  | nil => exact fun _ _ => ⟨[], rfl⟩
  | cons r rs ih =>
    intro htr hargs
    obtain ⟨tr, m⟩ := r
    obtain ⟨ds1, hd⟩ := @staticRule_total cx eid espan calleeSpan q args d tr m mn
      hqn (htr (tr, m) (List.mem_cons_self _ _))
      (hargs (tr, m) (List.mem_cons_self _ _))
    obtain ⟨ds2, hds⟩ := ih (fun r hr => htr r (List.mem_cons_of_mem _ hr))
      (fun r hr => hargs r (List.mem_cons_of_mem _ hr))
    exact ⟨ds1 ++ ds2, by simp [collectStatic, hd, hds]⟩

theorem methodName_isSome {q : QPath}
    (h : (match q with
          | .resolved segs => !segs.isEmpty
          | .typeRelative _ => true) = true) :
    ∃ mn, q.methodName = some mn := by
  cases q with
  | resolved segs =>
    simp at h
    cases hl : segs.getLast? with
    | none => exact absurd (List.getLast?_eq_none_iff.mp hl) h
    | some mn => exact ⟨mn, hl⟩
  | typeRelative seg => exact ⟨seg, rfl⟩

/-- The enter callback is total on locally well-formed nodes: none of the
partial accesses (`arms[0]`, `args[0]`, `segments.last().unwrap()`,
`trait_.last().unwrap()`) is reached outside its domain. -/
theorem check_expr_total {cx : Context} {e : Expr}
    (hwf : wfLocal cx e = true) (st : List NodeId) :
    ∃ st1 ds1, check_expr cx st e = some (st1, ds1) := by
  by_cases hm : cx.fromExpansion e.span = true
  · exact ⟨st, [], check_expr_expansion hm⟩
  by_cases hs : st.head? = some e.id
  · exact ⟨st, [], check_expr_skip hs⟩
  rw [Bool.not_eq_true] at hm
  cases e with
  | match_ i sp scrut arms src =>
    simp only [Expr.span, Expr.id] at hm hs
    cases src with
    | normal => exact ⟨st, [], by simp [check_expr, Expr.span, Expr.id, hm, hs]⟩
    | TryDesugar =>
      simp only [wfLocal] at hwf
      cases arms with
      | nil => simp [ExprList.headE] at hwf
      | cons armBody arms' =>
        simp only [ExprList.headE] at hwf
        cases armBody with
        | ret j jsp arg =>
          cases arg with
          | noneE =>
            exact ⟨st, [], by
              simp [check_expr, Expr.span, Expr.id, hm, hs, ExprList.headE]⟩
          | someE inner =>
            cases inner with
            | call k ksp f cargs =>
              cases cargs with
              | nil => simp [ExprList.isNil] at hwf
              | cons a0 rest =>
                exact ⟨a0.id :: st, [], by
                  simp [check_expr, Expr.span, Expr.id, hm, hs, ExprList.headE]⟩
            | match_ c1 c2 c3 c4 c5 =>
              exact ⟨st, [], by
                simp [check_expr, Expr.span, Expr.id, hm, hs, ExprList.headE]⟩
            | methodCall c1 c2 c3 c4 =>
              exact ⟨st, [], by
                simp [check_expr, Expr.span, Expr.id, hm, hs, ExprList.headE]⟩
            | ret c1 c2 c3 =>
              exact ⟨st, [], by
                simp [check_expr, Expr.span, Expr.id, hm, hs, ExprList.headE]⟩
            | break_ c1 c2 c3 =>
              exact ⟨st, [], by
                simp [check_expr, Expr.span, Expr.id, hm, hs, ExprList.headE]⟩
            | path c1 c2 c3 c4 =>
              exact ⟨st, [], by
                simp [check_expr, Expr.span, Expr.id, hm, hs, ExprList.headE]⟩
            | other c1 c2 c3 =>
              exact ⟨st, [], by
                simp [check_expr, Expr.span, Expr.id, hm, hs, ExprList.headE]⟩
        | break_ j jsp arg =>
          cases arg with
          | noneE =>
            exact ⟨st, [], by
              simp [check_expr, Expr.span, Expr.id, hm, hs, ExprList.headE]⟩
          | someE inner =>
            cases inner with
            | call k ksp f cargs =>
              cases cargs with
              | nil => simp [ExprList.isNil] at hwf
              | cons a0 rest =>
                exact ⟨a0.id :: st, [], by
                  simp [check_expr, Expr.span, Expr.id, hm, hs, ExprList.headE]⟩
            | match_ c1 c2 c3 c4 c5 =>
              exact ⟨st, [], by
                simp [check_expr, Expr.span, Expr.id, hm, hs, ExprList.headE]⟩
            | methodCall c1 c2 c3 c4 =>
              exact ⟨st, [], by
                simp [check_expr, Expr.span, Expr.id, hm, hs, ExprList.headE]⟩
            | ret c1 c2 c3 =>
              exact ⟨st, [], by
                simp [check_expr, Expr.span, Expr.id, hm, hs, ExprList.headE]⟩
            | break_ c1 c2 c3 =>
              exact ⟨st, [], by
                simp [check_expr, Expr.span, Expr.id, hm, hs, ExprList.headE]⟩
            | path c1 c2 c3 c4 =>
              exact ⟨st, [], by
                simp [check_expr, Expr.span, Expr.id, hm, hs, ExprList.headE]⟩
            | other c1 c2 c3 =>
              exact ⟨st, [], by
                simp [check_expr, Expr.span, Expr.id, hm, hs, ExprList.headE]⟩
        | match_ j jsp s2 a2 src2 =>
          exact ⟨st, [], by
            simp [check_expr, Expr.span, Expr.id, hm, hs, ExprList.headE]⟩
        | methodCall j jsp n2 a2 =>
          exact ⟨st, [], by
            simp [check_expr, Expr.span, Expr.id, hm, hs, ExprList.headE]⟩
        | call j jsp c2 a2 =>
          exact ⟨st, [], by
            simp [check_expr, Expr.span, Expr.id, hm, hs, ExprList.headE]⟩
        | path j jsp q2 h2 =>
          exact ⟨st, [], by
            simp [check_expr, Expr.span, Expr.id, hm, hs, ExprList.headE]⟩
        | other j jsp es2 =>
          exact ⟨st, [], by
            simp [check_expr, Expr.span, Expr.id, hm, hs, ExprList.headE]⟩
  | methodCall i sp name args =>
    simp only [Expr.span, Expr.id] at hm hs
    simp only [wfLocal] at hwf
    have ha : args.isNil = false := by simpa using hwf
    obtain ⟨ds, hds⟩ := @collectMethod_total cx i sp name args ha REDUNDANT_METHOD
    exact ⟨st, ds, by simp [check_expr, Expr.span, Expr.id, hm, hs, hds]⟩
  | call i sp callee args =>
    simp only [Expr.span, Expr.id] at hm hs
    cases callee with
    | path pi psp q hirId =>
      simp only [wfLocal] at hwf
      rw [Bool.and_eq_true] at hwf
      obtain ⟨hq, hres⟩ := hwf
      obtain ⟨mn, hmn⟩ := methodName_isSome hq
      cases hr : cx.resolve q hirId with
      | none =>
        exact ⟨st, [], by simp [check_expr, Expr.span, Expr.id, hm, hs, hr]⟩
      | some d =>
        rw [hr] at hres
        have hargs : ∀ r ∈ REDUNDANT_STATIC_METHOD ++ REDUNDANT_METHOD,
            ruleHit cx q d r = true → args.isNil = false := by
          rcases (Bool.or_eq_true ..).mp hres with hall | hne
          · intro r hrm hhit
            rw [List.all_eq_true] at hall
            have hthis := hall r hrm
            rw [hhit] at hthis
            simp at hthis
          · intro r hrm hhit
            simpa using hne
        have htr : ∀ r ∈ REDUNDANT_STATIC_METHOD ++ REDUNDANT_METHOD,
            r.1 ≠ [] := by
          intro r hrm
          fin_cases hrm <;> simp [paths.FROM_TRAIT, paths.INTO,
            paths.ASREF_TRAIT, paths.ASMUT_TRAIT, paths.BORROW_TRAIT,
            paths.BORROW_MUT_TRAIT, paths.ITERATOR]
        obtain ⟨ds, hds⟩ := @collectStatic_total cx i sp psp q args d mn hmn
          (REDUNDANT_STATIC_METHOD ++ REDUNDANT_METHOD) htr hargs
        exact ⟨st, ds, by simp [check_expr, Expr.span, Expr.id, hm, hs, hr, hds]⟩
    | match_ c1 c2 c3 c4 c5 =>
      exact ⟨st, [], by simp [check_expr, Expr.span, Expr.id, hm, hs]⟩
    | methodCall c1 c2 c3 c4 =>
      exact ⟨st, [], by simp [check_expr, Expr.span, Expr.id, hm, hs]⟩
    | call c1 c2 c3 c4 =>
      exact ⟨st, [], by simp [check_expr, Expr.span, Expr.id, hm, hs]⟩
    | ret c1 c2 c3 =>
      exact ⟨st, [], by simp [check_expr, Expr.span, Expr.id, hm, hs]⟩
    | break_ c1 c2 c3 =>
      exact ⟨st, [], by simp [check_expr, Expr.span, Expr.id, hm, hs]⟩
    | other c1 c2 c3 =>
      exact ⟨st, [], by simp [check_expr, Expr.span, Expr.id, hm, hs]⟩
  | ret i sp arg =>
    simp only [Expr.span, Expr.id] at hm hs
    cases arg <;> exact ⟨st, [], by simp [check_expr, Expr.span, Expr.id, hm, hs]⟩
  | break_ i sp arg =>
    simp only [Expr.span, Expr.id] at hm hs
    cases arg <;> exact ⟨st, [], by simp [check_expr, Expr.span, Expr.id, hm, hs]⟩
  | path i sp q hirId =>
    simp only [Expr.span, Expr.id] at hm hs
    exact ⟨st, [], by simp [check_expr, Expr.span, Expr.id, hm, hs]⟩
  | other i sp es =>
    simp only [Expr.span, Expr.id] at hm hs
    exact ⟨st, [], by simp [check_expr, Expr.span, Expr.id, hm, hs]⟩

theorem post_eq_of_not_mem {st : List NodeId} {e : Expr}
    (h : ∀ i ∈ st, i ∉ ids e) : check_expr_post st e = st := by
  unfold check_expr_post
  cases st with
  | nil => simp
  | cons x xs =>
    rw [if_neg]
    intro hx
    rw [List.head?_cons, Option.some.injEq] at hx
    subst hx
    exact h _ (List.mem_cons_self _ _) (mem_ids_self e)

theorem post_pop {st : List NodeId} {e : Expr}
    (h : st.head? = some e.id) : check_expr_post st e = st.tail := by
  unfold check_expr_post
  rw [if_pos h]

theorem runList_cons_eq (cx : Context) (st : List NodeId) (e : Expr)
    (es : ExprList) :
    runList cx st (.cons e es) =
      match runExpr cx st e with
      | none => none
      | some (st1, ds1) =>
        match runList cx st1 es with
        | none => none
        | some (st2, ds2) => some (st2, ds1 ++ ds2) := by
  simp only [runList]
  cases runExpr cx st e with
  | none => rfl
  | some p =>
    obtain ⟨a, b⟩ := p
    simp only [Option.bind_eq_bind, Option.some_bind]
    cases runList cx a es with
    | none => rfl
    | some q => obtain ⟨c, d⟩ := q; rfl

theorem runExpr_some {cx : Context} {st st1 st2 : List NodeId} {e : Expr}
    {ds1 ds2 : List Diagnostic}
    (hck : check_expr cx st e = some (st1, ds1))
    (hrun : runList cx st1 (kids e) = some (st2, ds2)) :
    runExpr cx st e = some (check_expr_post st2 e, ds1 ++ ds2) := by
  rw [runExpr_eq, hck]
  show (match runList cx st1 (kids e) with
        | none => none
        | some (st2', ds2') => some (check_expr_post st2' e, ds1 ++ ds2')) =
      some (check_expr_post st2 e, ds1 ++ ds2)
  rw [hrun]

theorem runList_cons_some {cx : Context} {st st1 st2 : List NodeId} {e : Expr}
    {es : ExprList} {ds1 ds2 : List Diagnostic}
    (h1 : runExpr cx st e = some (st1, ds1))
    (h2 : runList cx st1 es = some (st2, ds2)) :
    runList cx st (.cons e es) = some (st2, ds1 ++ ds2) := by
  rw [runList_cons_eq, h1]
  show (match runList cx st1 es with
        | none => none
        | some (st2', ds2') => some (st2', ds1 ++ ds2')) =
      some (st2, ds1 ++ ds2)
  rw [h2]

/-- Balance statement for one subtree: starting from a stack that is
either entirely foreign to the subtree, or carries exactly one pending
suppression target inside it (over which no inner match sits), the
traversal succeeds and returns the stack with the pending entry
consumed. -/
def BalE (cx : Context) (e : Expr) : Prop :=
  ∀ st rest, wf cx e = true → (ids e).Nodup →
    ((st = rest ∧ ∀ i ∈ st, i ∉ ids e) ∨
     (∃ t, st = t :: rest ∧ t ∈ ids e ∧ (∀ i ∈ rest, i ∉ ids e) ∧
       NoMatchAbove t e)) →
    ∃ ds, runExpr cx st e = some (rest, ds)

/-- Balance statement for a sequence of sibling subtrees. -/
def BalL (cx : Context) (es : ExprList) : Prop :=
  ∀ st rest, wfL cx es = true → (idsL es).Nodup →
    ((st = rest ∧ ∀ i ∈ st, i ∉ idsL es) ∨
     (∃ t, st = t :: rest ∧ t ∈ idsL es ∧ (∀ i ∈ rest, i ∉ idsL es) ∧
       NoMatchAboveL t es)) →
    ∃ ds, runList cx st es = some (rest, ds)

theorem balL_nil {cx : Context} : BalL cx .nil := by
  intro st rest hwf hnd hinv
  rcases hinv with ⟨hst, _⟩ | ⟨t, hst, htmem, _, _⟩
  · subst hst; exact ⟨[], rfl⟩
  · simp [idsL] at htmem

theorem balL_cons {cx : Context} {e : Expr} {es : ExprList}
    (he : BalE cx e) (hes : BalL cx es) : BalL cx (.cons e es) := by
  intro st rest hwf hnd hinv
  rw [show wfL cx (.cons e es) = (wf cx e && wfL cx es) from rfl,
    Bool.and_eq_true] at hwf
  obtain ⟨hwfe, hwfes⟩ := hwf
  rw [idsL_cons] at hnd
  obtain ⟨hnde, hndes, hdisj⟩ := List.nodup_append.mp hnd
  rcases hinv with ⟨hst, hdis⟩ | ⟨t, hst, htmem, hrest, hP⟩
  · subst hst
    obtain ⟨ds1, h1⟩ := he st st hwfe hnde
      (Or.inl ⟨rfl, fun i hi hin =>
        hdis i hi (by rw [idsL_cons]; exact List.mem_append_left _ hin)⟩)
    obtain ⟨ds2, h2⟩ := hes st st hwfes hndes
      (Or.inl ⟨rfl, fun i hi hin =>
        hdis i hi (by rw [idsL_cons]; exact List.mem_append_right _ hin)⟩)
    exact ⟨ds1 ++ ds2, runList_cons_some h1 h2⟩
  · subst hst
    rw [idsL_cons, List.mem_append] at htmem
    rcases htmem with hte | htes
    · obtain ⟨ds1, h1⟩ := he (t :: rest) rest hwfe hnde
        (Or.inr ⟨t, rfl, hte,
          (fun i hi hin =>
            hrest i hi (by rw [idsL_cons]; exact List.mem_append_left _ hin)),
          noMatchAbove_of_consL hP⟩)
      obtain ⟨ds2, h2⟩ := hes rest rest hwfes hndes
        (Or.inl ⟨rfl, fun i hi hin =>
          hrest i hi (by rw [idsL_cons]; exact List.mem_append_right _ hin)⟩)
      exact ⟨ds1 ++ ds2, runList_cons_some h1 h2⟩
    · have htne : t ∉ ids e := List.disjoint_right.mp hdisj htes
      obtain ⟨ds1, h1⟩ := he (t :: rest) (t :: rest) hwfe hnde
        (Or.inl ⟨rfl, by
          intro i hi hin
          rcases List.mem_cons.mp hi with hi | hi
          · subst hi; exact htne hin
          · exact hrest i hi
              (by rw [idsL_cons]; exact List.mem_append_left _ hin)⟩)
      obtain ⟨ds2, h2⟩ := hes (t :: rest) rest hwfes hndes
        (Or.inr ⟨t, rfl, htes,
          (fun i hi hin =>
            hrest i hi (by rw [idsL_cons]; exact List.mem_append_right _ hin)),
          noMatchAboveL_of_consL hP⟩)
      exact ⟨ds1 ++ ds2, runList_cons_some h1 h2⟩

theorem balE_node {cx : Context} {e : Expr} (hk : BalL cx (kids e)) :
    BalE cx e := by
  intro st rest hwf hnd hinv
  have hndk : (idsL (kids e)).Nodup := by
    rw [ids_eq] at hnd; exact (List.nodup_cons.mp hnd).2
  have hid_nk : e.id ∉ idsL (kids e) := by
    rw [ids_eq] at hnd; exact (List.nodup_cons.mp hnd).1
  rw [wf_eq, Bool.and_eq_true] at hwf
  obtain ⟨hwfl, hwfk⟩ := hwf
  obtain ⟨st1, ds1, hck⟩ := check_expr_total hwfl st
  rcases check_expr_stack hck with hst1 | ⟨hds1, hmatch, t', hst1, ht'k, hPk'⟩
  · subst hst1
    rcases hinv with ⟨hst, hdis⟩ | ⟨t, hst, htmem, hrest, hP⟩
    · subst hst
      obtain ⟨ds2, h2⟩ := hk _ _ hwfk hndk
        (Or.inl ⟨rfl, fun i hi hin => hdis i hi (mem_ids_of_mem_kids hin)⟩)
      refine ⟨ds1 ++ ds2, ?_⟩
      rw [runExpr_some hck h2, post_eq_of_not_mem hdis]
    · subst hst
      rw [ids_eq, List.mem_cons] at htmem
      rcases htmem with hte | htk
      · subst hte
        obtain ⟨ds2, h2⟩ := hk (e.id :: rest) (e.id :: rest) hwfk hndk
          (Or.inl ⟨rfl, by
            intro i hi hin
            rcases List.mem_cons.mp hi with hi | hi
            · subst hi; exact hid_nk hin
            · exact hrest i hi (mem_ids_of_mem_kids hin)⟩)
        refine ⟨ds1 ++ ds2, ?_⟩
        rw [runExpr_some hck h2, post_pop (by simp)]
        rfl
      · obtain ⟨ds2, h2⟩ := hk (t :: rest) rest hwfk hndk
          (Or.inr ⟨t, rfl, htk,
            (fun i hi hin => hrest i hi (mem_ids_of_mem_kids hin)),
            noMatchAboveL_of_node hP⟩)
        refine ⟨ds1 ++ ds2, ?_⟩
        rw [runExpr_some hck h2, post_eq_of_not_mem hrest]
  · subst hds1
    rcases hinv with ⟨hst, hdis⟩ | ⟨t, hst, htmem, hrest, hP⟩
    · subst hst
      subst hst1
      obtain ⟨ds2, h2⟩ := hk (t' :: st) st hwfk hndk
        (Or.inr ⟨t', rfl, ht'k,
          (fun i hi hin => hdis i hi (mem_ids_of_mem_kids hin)), hPk' hnd⟩)
      refine ⟨[] ++ ds2, ?_⟩
      rw [runExpr_some hck h2, post_eq_of_not_mem hdis]
    · exfalso
      have hteid : t = e.id := by
        rw [ids_eq, List.mem_cons] at htmem
        rcases htmem with h | h
        · exact h
        · exact absurd h (not_kid_of_noMatchAbove hP hmatch)
      have hskip : st.head? = some e.id := by rw [hst, hteid]; rfl
      rw [check_expr_skip hskip] at hck
      have hst1' : st1 = st := by
        have := Option.some.inj hck
        exact (Prod.mk.injEq .. ▸ this).1.symm
      rw [hst1'] at hst1
      have hlen := congrArg List.length hst1
      simp at hlen

mutual
theorem balE (cx : Context) : ∀ e : Expr, BalE cx e
  | .match_ _ _ scrut arms _ =>
    balE_node (balL_cons (balE cx scrut) (balL cx arms))
  | .methodCall _ _ _ args => balE_node (balL cx args)
  | .call _ _ callee args =>
    balE_node (balL_cons (balE cx callee) (balL cx args))
  | .ret _ _ (.someE x) => balE_node (balL_cons (balE cx x) balL_nil)
  | .ret _ _ .noneE => balE_node balL_nil
  | .break_ _ _ (.someE x) => balE_node (balL_cons (balE cx x) balL_nil)
  | .break_ _ _ .noneE => balE_node balL_nil
  | .path _ _ _ _ => balE_node balL_nil
  | .other _ _ es => balE_node (balL cx es)

theorem balL (cx : Context) : ∀ es : ExprList, BalL cx es
  | .nil => balL_nil
  | .cons e es => balL_cons (balE cx e) (balL cx es)
end

/-- Full-run balance: a traversal started on the empty suppression stack
over a well-formed tree with distinct node ids succeeds and ends with the
empty stack. -/
theorem run_balanced {cx : Context} {e : Expr}
    (hwf : wf cx e = true) (hnd : (ids e).Nodup) :
    ∃ ds, runExpr cx [] e = some ([], ds) :=
  balE cx e [] [] hwf hnd (Or.inl ⟨rfl, by simp⟩)

/-- Spans of a sequence of subtrees. -/
def spansL (es : ExprList) : List Span := (subL es).map Expr.span

theorem spans_eq (e : Expr) : spans e = e.span :: spansL (kids e) := by
  rw [spans, spansL, subexprs_eq, List.map_cons]

theorem spansL_cons (e : Expr) (es : ExprList) :
    spansL (.cons e es) = spans e ++ spansL es := by
  rw [spansL, spans, subL_cons, List.map_append, spansL]

/-- Statement: a subtree lying entirely in macro-expanded source yields no
diagnostics, from any stack. -/
def MacE (cx : Context) (e : Expr) : Prop :=
  (∀ s ∈ spans e, cx.fromExpansion s = true) →
    ∀ st, ∃ st', runExpr cx st e = some (st', [])

/-- List form of `MacE`. -/
def MacL (cx : Context) (es : ExprList) : Prop :=
  (∀ s ∈ spansL es, cx.fromExpansion s = true) →
    ∀ st, ∃ st', runList cx st es = some (st', [])

theorem macL_nil {cx : Context} : MacL cx .nil :=
  fun _ st => ⟨st, rfl⟩

theorem macL_cons {cx : Context} {e : Expr} {es : ExprList}
    (he : MacE cx e) (hes : MacL cx es) : MacL cx (.cons e es) := by
  intro hall st
  obtain ⟨st1, h1⟩ := he
    (fun s hs => hall s (by rw [spansL_cons]; exact List.mem_append_left _ hs)) st
  obtain ⟨st2, h2⟩ := hes
    (fun s hs => hall s (by rw [spansL_cons]; exact List.mem_append_right _ hs)) st1
  exact ⟨st2, by rw [runList_cons_some h1 h2]; rfl⟩

theorem macE_node {cx : Context} {e : Expr} (hk : MacL cx (kids e)) :
    MacE cx e := by
  intro hall st
  have hsp : cx.fromExpansion e.span = true :=
    hall e.span (by rw [spans_eq]; exact List.mem_cons_self _ _)
  obtain ⟨st2, h2⟩ := hk
    (fun s hs => hall s (by rw [spans_eq]; exact List.mem_cons_of_mem _ hs)) st
  exact ⟨check_expr_post st2 e, by
    rw [runExpr_some (check_expr_expansion hsp) h2]; rfl⟩

mutual
theorem macE (cx : Context) : ∀ e : Expr, MacE cx e
  | .match_ _ _ scrut arms _ =>
    macE_node (macL_cons (macE cx scrut) (macL cx arms))
  | .methodCall _ _ _ args => macE_node (macL cx args)
  | .call _ _ callee args =>
    macE_node (macL_cons (macE cx callee) (macL cx args))
  | .ret _ _ (.someE x) => macE_node (macL_cons (macE cx x) macL_nil)
  | .ret _ _ .noneE => macE_node macL_nil
  | .break_ _ _ (.someE x) => macE_node (macL_cons (macE cx x) macL_nil)
  | .break_ _ _ .noneE => macE_node macL_nil
  | .path _ _ _ _ => macE_node macL_nil
  | .other _ _ es => macE_node (macL cx es)

theorem macL (cx : Context) : ∀ es : ExprList, MacL cx es
  | .nil => macL_nil
  | .cons e es => macL_cons (macE cx e) (macL cx es)
end

/-- Statement: the traversal of a well-formed subtree never aborts. -/
def TotE (cx : Context) (e : Expr) : Prop :=
  wf cx e = true → ∀ st, ∃ out, runExpr cx st e = some out

/-- List form of `TotE`. -/
def TotL (cx : Context) (es : ExprList) : Prop :=
  wfL cx es = true → ∀ st, ∃ out, runList cx st es = some out

theorem totL_nil {cx : Context} : TotL cx .nil :=
  fun _ st => ⟨(st, []), rfl⟩

theorem totL_cons {cx : Context} {e : Expr} {es : ExprList}
    (he : TotE cx e) (hes : TotL cx es) : TotL cx (.cons e es) := by
  intro hwf st
  rw [show wfL cx (.cons e es) = (wf cx e && wfL cx es) from rfl,
    Bool.and_eq_true] at hwf
  obtain ⟨⟨st1, ds1⟩, h1⟩ := he hwf.1 st
  obtain ⟨⟨st2, ds2⟩, h2⟩ := hes hwf.2 st1
  exact ⟨(st2, ds1 ++ ds2), runList_cons_some h1 h2⟩

theorem totE_node {cx : Context} {e : Expr} (hk : TotL cx (kids e)) :
    TotE cx e := by
  intro hwf st
  rw [wf_eq, Bool.and_eq_true] at hwf
  obtain ⟨st1, ds1, hck⟩ := check_expr_total hwf.1 st
  obtain ⟨⟨st2, ds2⟩, h2⟩ := hk hwf.2 st1
  exact ⟨(check_expr_post st2 e, ds1 ++ ds2), runExpr_some hck h2⟩

mutual
theorem totE (cx : Context) : ∀ e : Expr, TotE cx e
  | .match_ _ _ scrut arms _ =>
    totE_node (totL_cons (totE cx scrut) (totL cx arms))
  | .methodCall _ _ _ args => totE_node (totL cx args)
  | .call _ _ callee args =>
    totE_node (totL_cons (totE cx callee) (totL cx args))
  | .ret _ _ (.someE x) => totE_node (totL_cons (totE cx x) totL_nil)
  | .ret _ _ .noneE => totE_node totL_nil
  | .break_ _ _ (.someE x) => totE_node (totL_cons (totE cx x) totL_nil)
  | .break_ _ _ .noneE => totE_node totL_nil
  | .path _ _ _ _ => totE_node totL_nil
  | .other _ _ es => totE_node (totL cx es)

theorem totL (cx : Context) : ∀ es : ExprList, TotL cx es
  | .nil => totL_nil
  | .cons e es => totL_cons (totE cx e) (totL cx es)
end

theorem methodRule_miss {cx : Context} {eid : NodeId} {espan : Span}
    {name : String} {args : ExprList} {tr : List String} {method : String}
    (hne : (name == method) = false) :
    methodRule cx eid espan name args tr method = some [] := by
  simp [methodRule, hne]

theorem collectMethod_miss {cx : Context} {eid : NodeId} {espan : Span}
    {name : String} {args : ExprList} :
    ∀ rs : List (List String × String),
      (∀ r ∈ rs, (name == r.2) = false) →
      collectMethod cx eid espan name args rs = some [] := by
  intro rs
  induction rs with
  | nil => exact fun _ => rfl
  | cons r rs' ih =>
    intro hall
    obtain ⟨tr', m'⟩ := r
    have h1 := hall (tr', m') (List.mem_cons_self _ _)
    have h2 := ih fun r hr => hall r (List.mem_cons_of_mem _ hr)
    simp [collectMethod, methodRule_miss h1, h2]

theorem methodRule_hit {cx : Context} {eid : NodeId} {espan : Span}
    {m : String} {a0 : Expr} {rest : ExprList} {tr : List String}
    (htrait : cx.match_trait_method eid tr = true)
    (hsame : cx.same_tys (cx.expr_ty eid) (cx.expr_ty a0.id) = true) :
    methodRule cx eid espan m (.cons a0 rest) tr m =
      some [⟨espan, "identical conversion", espan,
             "consider removing `." ++ m ++ "()`",
             cx.snippet a0.span "<expr>"⟩] := by
  simp [methodRule, htrait, hsame, ExprList.headE]

theorem collectMethod_one {cx : Context} {eid : NodeId} {espan : Span}
    {m : String} {a0 : Expr} {rest : ExprList} {tr : List String} :
    ∀ rs : List (List String × String),
      (rs.map Prod.snd).Nodup → (tr, m) ∈ rs →
      cx.match_trait_method eid tr = true →
      cx.same_tys (cx.expr_ty eid) (cx.expr_ty a0.id) = true →
      collectMethod cx eid espan m (.cons a0 rest) rs =
        some [⟨espan, "identical conversion", espan,
               "consider removing `." ++ m ++ "()`",
               cx.snippet a0.span "<expr>"⟩] := by
  intro rs
  induction rs with
  | nil => intro _ hmem; simp at hmem
  | cons r rs' ih =>
    intro hnd hmem htrait hsame
    obtain ⟨tr', m'⟩ := r
    rw [List.map_cons] at hnd
    obtain ⟨hnin, hnd'⟩ := List.nodup_cons.mp hnd
    rcases List.mem_cons.mp hmem with heq | hmem'
    · obtain ⟨htr, hmeq⟩ := Prod.mk.injEq .. ▸ heq
      subst htr; subst hmeq
      have hmiss : ∀ r' ∈ rs', (m == r'.2) = false := by
        intro r' hr'
        rw [beq_eq_false_iff_ne]
        intro hmm
        have hr2 := List.mem_map_of_mem Prod.snd hr'
        exact hnin (by rw [hmm]; exact hr2)
      simp [collectMethod, methodRule_hit htrait hsame, collectMethod_miss rs' hmiss]
    · have hmem2 : m ∈ rs'.map Prod.snd := List.mem_map_of_mem Prod.snd hmem'
      have hne : (m == m') = false := by
        rw [beq_eq_false_iff_ne]
        intro hmm
        exact hnin (hmm ▸ hmem2)
      simp [collectMethod, methodRule_miss hne, ih hnd' hmem' htrait hsame]

theorem staticRule_miss {cx : Context} {eid : NodeId} {espan : Span}
    {calleeSpan : Span} {q : QPath} {args : ExprList} {d : DefId}
    {tr : List String} {method mn : String}
    (hqn : q.methodName = some mn) (hne : (mn == method) = false) :
    staticRule cx eid espan calleeSpan q args d tr method = some [] := by
  rw [staticRule_eq hqn]
  split <;> simp [hne]

theorem collectStatic_miss {cx : Context} {eid : NodeId} {espan : Span}
    {calleeSpan : Span} {q : QPath} {args : ExprList} {d : DefId} {mn : String}
    (hqn : q.methodName = some mn) :
    ∀ rs : List (List String × String),
      (∀ r ∈ rs, (mn == r.2) = false) →
      collectStatic cx eid espan calleeSpan q args d rs = some [] := by
  intro rs
  induction rs with
  | nil => exact fun _ => rfl
  | cons r rs' ih =>
    intro hall
    obtain ⟨tr', m'⟩ := r
    have h1 := hall (tr', m') (List.mem_cons_self _ _)
    have h2 := ih fun r hr => hall r (List.mem_cons_of_mem _ hr)
    simp [collectStatic, staticRule_miss hqn h1, h2]

theorem staticRule_hit {cx : Context} {eid : NodeId} {espan : Span}
    {calleeSpan : Span} {q : QPath} {a0 : Expr} {rest : ExprList} {d : DefId}
    {tr : List String} {method seg : String}
    (hqn : q.methodName = some method)
    (hdef : cx.match_def_path d tr = true)
    (hsame : cx.same_tys (cx.expr_ty eid) (cx.expr_ty a0.id) = true)
    (hlast : tr.getLast? = some seg) :
    staticRule cx eid espan calleeSpan q (.cons a0 rest) d tr method =
      some [⟨espan, "identical conversion", espan,
             "consider removing `" ++
               cx.snippet calleeSpan (seg ++ "::" ++ method) ++ "()`",
             cx.snippet a0.span "<expr>"⟩] := by
  rw [staticRule_eq hqn]
  simp [hdef, ExprList.headE, hsame, hlast]

theorem collectStatic_one {cx : Context} {eid : NodeId} {espan : Span}
    {calleeSpan : Span} {q : QPath} {a0 : Expr} {rest : ExprList} {d : DefId}
    {tr : List String} {method seg : String} :
    ∀ rs : List (List String × String),
      (rs.map Prod.snd).Nodup → (tr, method) ∈ rs →
      q.methodName = some method →
      cx.match_def_path d tr = true →
      cx.same_tys (cx.expr_ty eid) (cx.expr_ty a0.id) = true →
      tr.getLast? = some seg →
      collectStatic cx eid espan calleeSpan q (.cons a0 rest) d rs =
        some [⟨espan, "identical conversion", espan,
               "consider removing `" ++
                 cx.snippet calleeSpan (seg ++ "::" ++ method) ++ "()`",
               cx.snippet a0.span "<expr>"⟩] := by
  intro rs
  induction rs with
  | nil => intro _ hmem; simp at hmem
  | cons r rs' ih =>
    intro hnd hmem hqn hdef hsame hlast
    obtain ⟨tr', m'⟩ := r
    rw [List.map_cons] at hnd
    obtain ⟨hnin, hnd'⟩ := List.nodup_cons.mp hnd
    rcases List.mem_cons.mp hmem with heq | hmem'
    · obtain ⟨htr, hmeq⟩ := Prod.mk.injEq .. ▸ heq
      subst htr; subst hmeq
      have hmiss : ∀ r' ∈ rs', (method == r'.2) = false := by
        intro r' hr'
        rw [beq_eq_false_iff_ne]
        intro hmm
        have hr2 := List.mem_map_of_mem Prod.snd hr'
        exact hnin (by rw [hmm]; exact hr2)
      simp [collectStatic, staticRule_hit hqn hdef hsame hlast,
        collectStatic_miss hqn rs' hmiss]
    · have hmem2 : method ∈ rs'.map Prod.snd := List.mem_map_of_mem Prod.snd hmem'
      have hne : (method == m') = false := by
        rw [beq_eq_false_iff_ne]
        intro hmm
        exact hnin (hmm ▸ hmem2)
      simp [collectStatic, staticRule_miss hqn hne,
        ih hnd' hmem' hqn hdef hsame hlast]

theorem methodRule_nofire {cx : Context} {eid : NodeId} {espan : Span}
    {name : String} {a0 : Expr} {rest : ExprList} {tr : List String}
    {method : String}
    (hsame : cx.same_tys (cx.expr_ty eid) (cx.expr_ty a0.id) = false) :
    methodRule cx eid espan name (.cons a0 rest) tr method = some [] := by
  unfold methodRule
  split
  · simp [ExprList.headE, hsame]
  · rfl

theorem collectMethod_nofire {cx : Context} {eid : NodeId} {espan : Span}
    {name : String} {a0 : Expr} {rest : ExprList}
    (hsame : cx.same_tys (cx.expr_ty eid) (cx.expr_ty a0.id) = false) :
    ∀ rs : List (List String × String),
      collectMethod cx eid espan name (.cons a0 rest) rs = some [] := by
  intro rs
  induction rs with
  | nil => rfl
  | cons r rs' ih =>
    obtain ⟨tr', m'⟩ := r
    simp [collectMethod, methodRule_nofire hsame, ih]

theorem staticRule_nofire {cx : Context} {eid : NodeId} {espan : Span}
    {calleeSpan : Span} {q : QPath} {a0 : Expr} {rest : ExprList} {d : DefId}
    {tr : List String} {method : String} {ds : List Diagnostic}
    (hsame : cx.same_tys (cx.expr_ty eid) (cx.expr_ty a0.id) = false)
    (h : staticRule cx eid espan calleeSpan q (.cons a0 rest) d tr method =
      some ds) : ds = [] := by
  cases hqn : q.methodName with
  | none =>
    unfold staticRule at h
    split at h
    · rw [hqn] at h; simp at h
    · exact (Option.some.inj h).symm
  | some mn =>
    rw [staticRule_eq hqn] at h
    split at h
    · split at h
      · simp only [ExprList.headE] at h
        rw [hsame] at h
        simp at h
        exact h
      · exact (Option.some.inj h).symm
    · exact (Option.some.inj h).symm

theorem collectStatic_nofire {cx : Context} {eid : NodeId} {espan : Span}
    {calleeSpan : Span} {q : QPath} {a0 : Expr} {rest : ExprList} {d : DefId}
    (hsame : cx.same_tys (cx.expr_ty eid) (cx.expr_ty a0.id) = false) :
    ∀ (rs : List (List String × String)) (ds : List Diagnostic),
      collectStatic cx eid espan calleeSpan q (.cons a0 rest) d rs = some ds →
      ds = [] := by
  intro rs
  induction rs with
  | nil => intro ds h; exact (Option.some.inj h).symm
  | cons r rs' ih =>
    intro ds h
    obtain ⟨tr', m'⟩ := r
    cases hs : staticRule cx eid espan calleeSpan q (.cons a0 rest) d tr' m' with
    | none => rw [collectStatic, hs] at h; simp at h
    | some d1 =>
      cases hcs : collectStatic cx eid espan calleeSpan q (.cons a0 rest) d rs' with
      | none => rw [collectStatic, hs] at h; simp [hcs] at h
      | some ds' =>
        rw [collectStatic, hs] at h
        simp only [Option.some_bind, hcs] at h
        simp at h
        rw [← h, staticRule_nofire hsame hs, ih ds' hcs]
        rfl

theorem staticRule_cases {cx : Context} {eid : NodeId} {espan : Span}
    {calleeSpan : Span} {q : QPath} {args : ExprList} {d : DefId}
    {tr : List String} {method : String} {ds : List Diagnostic}
    (h : staticRule cx eid espan calleeSpan q args d tr method = some ds) :
    ds = [] ∨ (∃ d1, ds = [d1] ∧ q.methodName = some method) := by
  cases hqn : q.methodName with
  | none =>
    unfold staticRule at h
    split at h
    · rw [hqn] at h; simp at h
    · left; exact (Option.some.inj h).symm
  | some mn =>
    rw [staticRule_eq hqn] at h
    split at h
    · split at h
      · rename_i hname
        have heq : mn = method := by simpa using hname
        split at h
        · simp at h
        · split at h
          · split at h
            · simp at h
            · right
              refine ⟨_, (Option.some.inj h).symm, ?_⟩
              rw [← heq]
          · left; exact (Option.some.inj h).symm
      · left; exact (Option.some.inj h).symm
    · left; exact (Option.some.inj h).symm

theorem collectStatic_len {cx : Context} {eid : NodeId} {espan : Span}
    {calleeSpan : Span} {q : QPath} {args : ExprList} {d : DefId} :
    ∀ (rs : List (List String × String)) (ds : List Diagnostic),
      (rs.map Prod.snd).Nodup →
      collectStatic cx eid espan calleeSpan q args d rs = some ds →
      ds.length ≤ 1 := by
  intro rs
  induction rs with
  | nil =>
    intro ds _ h
    rw [← Option.some.inj h]
    simp
  | cons r rs' ih =>
    intro ds hnd h
    obtain ⟨tr', m'⟩ := r
    rw [List.map_cons] at hnd
    obtain ⟨hnin, hnd'⟩ := List.nodup_cons.mp hnd
    cases hs : staticRule cx eid espan calleeSpan q args d tr' m' with
    | none => rw [collectStatic, hs] at h; simp at h
    | some d1 =>
      cases hcs : collectStatic cx eid espan calleeSpan q args d rs' with
      | none => rw [collectStatic, hs] at h; simp [hcs] at h
      | some ds' =>
        rw [collectStatic, hs] at h
        simp only [Option.some_bind, hcs] at h
        simp at h
        rw [← h]
        rcases staticRule_cases hs with hd1 | ⟨x, hd1, hqn⟩
        · subst hd1
          simpa using ih ds' hnd' hcs
        · subst hd1
          have hmiss : ∀ r2 ∈ rs', (m' == r2.2) = false := by
            intro r2 hr2
            rw [beq_eq_false_iff_ne]
            intro hmm
            have hr3 := List.mem_map_of_mem Prod.snd hr2
            exact hnin (by rw [hmm]; exact hr3)
          have hnil := @collectStatic_miss cx eid espan calleeSpan q args d m'
            hqn rs' hmiss
          rw [hcs] at hnil
          rw [Option.some.inj hnil]
          simp

theorem check_expr_methodCall_ds {cx : Context} {st st' : List NodeId}
    {i : NodeId} {sp : Span} {name : String} {args : ExprList}
    {ds : List Diagnostic}
    (h : check_expr cx st (.methodCall i sp name args) = some (st', ds)) :
    ds = [] ∨ collectMethod cx i sp name args REDUNDANT_METHOD = some ds := by
  by_cases hm : cx.fromExpansion (Expr.methodCall i sp name args).span = true
  · rw [check_expr_expansion hm] at h
    left; exact (congrArg Prod.snd (Option.some.inj h)).symm
  by_cases hs : st.head? = some (Expr.methodCall i sp name args).id
  · rw [check_expr_skip hs] at h
    left; exact (congrArg Prod.snd (Option.some.inj h)).symm
  rw [Bool.not_eq_true] at hm
  simp only [Expr.span, Expr.id] at hm hs
  simp only [check_expr, Expr.span, Expr.id, hm, Bool.false_eq_true,
    if_false, if_neg hs] at h
  cases hc : collectMethod cx i sp name args REDUNDANT_METHOD with
  | none => rw [hc] at h; simp at h
  | some ds2 =>
    rw [hc] at h
    simp at h
    right
    exact congrArg some h.2

theorem check_expr_call_ds {cx : Context} {st st' : List NodeId}
    {i : NodeId} {sp : Span} {callee : Expr} {args : ExprList}
    {ds : List Diagnostic}
    (h : check_expr cx st (.call i sp callee args) = some (st', ds)) :
    ds = [] ∨ ∃ pi psp q hirId d, callee = .path pi psp q hirId ∧
      cx.resolve q hirId = some d ∧
      collectStatic cx i sp psp q args d
        (REDUNDANT_STATIC_METHOD ++ REDUNDANT_METHOD) = some ds := by
  by_cases hm : cx.fromExpansion (Expr.call i sp callee args).span = true
  · rw [check_expr_expansion hm] at h
    left; exact (congrArg Prod.snd (Option.some.inj h)).symm
  by_cases hs : st.head? = some (Expr.call i sp callee args).id
  · rw [check_expr_skip hs] at h
    left; exact (congrArg Prod.snd (Option.some.inj h)).symm
  rw [Bool.not_eq_true] at hm
  simp only [Expr.span, Expr.id] at hm hs
  simp only [check_expr, Expr.span, Expr.id, hm, Bool.false_eq_true,
    if_false, if_neg hs] at h
  cases callee with
  | path pi psp q hirId =>
    have h' : (match cx.resolve q hirId with
        | none => some (st, [])
        | some d =>
          match collectStatic cx i sp psp q args d
              (REDUNDANT_STATIC_METHOD ++ REDUNDANT_METHOD) with
          | none => none
          | some ds => some (st, ds)) = some (st', ds) := h
    cases hr : cx.resolve q hirId with
    | none =>
      rw [hr] at h'
      left; exact (congrArg Prod.snd (Option.some.inj h')).symm
    | some d =>
      rw [hr] at h'
      have h2 : (match collectStatic cx i sp psp q args d
            (REDUNDANT_STATIC_METHOD ++ REDUNDANT_METHOD) with
          | none => none
          | some ds => some (st, ds)) = some (st', ds) := h'
      cases hc : collectStatic cx i sp psp q args d
          (REDUNDANT_STATIC_METHOD ++ REDUNDANT_METHOD) with
      | none => rw [hc] at h2; simp at h2
      | some ds2 =>
        rw [hc] at h2
        simp at h2
        right
        exact ⟨pi, psp, q, hirId, d, rfl, hr, by rw [hc, h2.2]⟩
  | match_ c1 c2 c3 c4 c5 => simp at h; left; exact h.2
  | methodCall c1 c2 c3 c4 => simp at h; left; exact h.2
  | call c1 c2 c3 c4 => simp at h; left; exact h.2
  | ret c1 c2 c3 => simp at h; left; exact h.2
  | break_ c1 c2 c3 => simp at h; left; exact h.2
  | other c1 c2 c3 => simp at h; left; exact h.2

/-- Concrete context on which every oracle answers positively: one shared
inferred type, every trait and definition test succeeds, every callee
resolves, no macro expansion, snippets fall back to their default text. -/
def cxYes : Context :=
  ⟨fun _ => false, fun _ => 0, fun _ _ => true, fun _ _ => true,
   fun _ _ => some 0, fun _ _ => true, fun _ dflt => dflt⟩

/-- Concrete context on which every oracle answers negatively. -/
def cxNo : Context :=
  ⟨fun _ => false, fun _ => 0, fun _ _ => false, fun _ _ => false,
   fun _ _ => none, fun _ _ => false, fun _ dflt => dflt⟩

/-- Concrete context reporting every span as macro-expanded. -/
def cxExpanded : Context :=
  ⟨fun _ => true, fun _ => 0, fun _ _ => true, fun _ _ => true,
   fun _ _ => some 0, fun _ _ => true, fun _ dflt => dflt⟩

/-- Concrete error-propagation desugar match (the expansion of a `?`
expression): its first arm returns a call whose first argument (id 6) is
itself a conversion-shaped call. -/
def exTry : Expr :=
  .match_ 1 10 (.path 2 11 (.typeRelative "r") 2)
    (.cons
      (.ret 3 12 (.someE
        (.call 4 13 (.path 5 14 (.typeRelative "f") 5)
          (.cons
            (.call 6 15 (.path 7 16 (.typeRelative "g") 7)
              (.cons (.path 8 17 (.typeRelative "e") 8) .nil))
            .nil))))
      .nil)
    .TryDesugar

/-- C1: for a method-call expression `x.m()` not from macro expansion and
not suppressed, where `m` is a tracked method of `REDUNDANT_METHOD`, the
call dispatches through the tracked interface, and the inferred type of
the whole expression equals that of the receiver, the enter callback
emits exactly one diagnostic with message "identical conversion",
replacement text the snippet of the receiver, and suggestion label
"consider removing `.<m>()`"; the suppression stack is unchanged. -/
theorem claim_C1_method_call_fires (cx : Context) (st : List NodeId)
    (i : NodeId) (sp : Span) (m : String) (a0 : Expr) (rest : ExprList)
    (tr : List String)
    (hrule : (tr, m) ∈ REDUNDANT_METHOD)
    (hmac : cx.fromExpansion sp = false)
    (hnosup : st.head? ≠ some i)
    (htrait : cx.match_trait_method i tr = true)
    (hsame : cx.same_tys (cx.expr_ty i) (cx.expr_ty a0.id) = true) :
    check_expr cx st (.methodCall i sp m (.cons a0 rest)) =
      some (st, [⟨sp, "identical conversion", sp,
                  "consider removing `." ++ m ++ "()`",
                  cx.snippet a0.span "<expr>"⟩]) := by
  have hnd : (REDUNDANT_METHOD.map Prod.snd).Nodup := by decide
  have hone := @collectMethod_one cx i sp m a0 rest tr REDUNDANT_METHOD
    hnd hrule htrait hsame
  simp [check_expr, Expr.span, Expr.id, hmac, hnosup, hone]

/-- Witness for C1: on the all-positive context, `x.into()` with receiver
node 2 fires once with the expected message, label and replacement. -/
theorem claim_C1_witness :
    ((paths.INTO, "into") ∈ REDUNDANT_METHOD) ∧
    cxYes.fromExpansion 10 = false ∧
    ([] : List NodeId).head? ≠ some 1 ∧
    cxYes.match_trait_method 1 paths.INTO = true ∧
    cxYes.same_tys (cxYes.expr_ty 1) (cxYes.expr_ty 2) = true ∧
    check_expr cxYes []
        (.methodCall 1 10 "into" (.cons (.path 2 11 (.typeRelative "x") 2) .nil)) =
      some ([], [⟨10, "identical conversion", 10,
                  "consider removing `.into()`", "<expr>"⟩]) :=
  ⟨by decide, rfl, by decide, rfl, rfl,
   claim_C1_method_call_fires cxYes [] 1 10 "into"
     (.path 2 11 (.typeRelative "x") 2) .nil paths.INTO (by decide) rfl
     (by decide) rfl rfl⟩

/-- C2: for a qualified-call expression whose callee path resolves to a
definition, the matcher iterates `REDUNDANT_STATIC_METHOD` followed by
`REDUNDANT_METHOD`; when the resolved definition matches a rule's full
interface path, the call-site method name (last resolved segment or
type-relative segment) equals the rule's method name, and the inferred
types of the whole call and of its first argument are equal, exactly one
diagnostic is emitted, with suggestion label quoting the callee snippet
(default `<Interface>::<method>`) and replacement the first argument's
snippet. -/
theorem claim_C2_qualified_call_fires (cx : Context) (st : List NodeId)
    (i : NodeId) (sp : Span) (pi : NodeId) (psp : Span) (q : QPath)
    (hirId : HirId) (a0 : Expr) (rest : ExprList) (d : DefId)
    (tr : List String) (method seg : String)
    (hrule : (tr, method) ∈ REDUNDANT_STATIC_METHOD ++ REDUNDANT_METHOD)
    (hmac : cx.fromExpansion sp = false)
    (hnosup : st.head? ≠ some i)
    (hres : cx.resolve q hirId = some d)
    (hdef : cx.match_def_path d tr = true)
    (hqn : q.methodName = some method)
    (hsame : cx.same_tys (cx.expr_ty i) (cx.expr_ty a0.id) = true)
    (hlast : tr.getLast? = some seg) :
    check_expr cx st (.call i sp (.path pi psp q hirId) (.cons a0 rest)) =
      some (st, [⟨sp, "identical conversion", sp,
                  "consider removing `" ++
                    cx.snippet psp (seg ++ "::" ++ method) ++ "()`",
                  cx.snippet a0.span "<expr>"⟩]) := by
  have hnd : ((REDUNDANT_STATIC_METHOD ++ REDUNDANT_METHOD).map
      Prod.snd).Nodup := by decide
  have hone := @collectStatic_one cx i sp psp q a0 rest d tr method seg
    (REDUNDANT_STATIC_METHOD ++ REDUNDANT_METHOD) hnd hrule hqn hdef hsame hlast
  simp [check_expr, Expr.span, Expr.id, hmac, hnosup, hres, hone]

/-- Witness for C2: `Wrapper::from(x)` on the all-positive context fires
once; the suggestion label falls back to `From::from` (the last segment of
the tracked interface path and the method name), and the replacement is
the argument snippet. -/
theorem claim_C2_witness :
    ((paths.FROM_TRAIT, "from") ∈ REDUNDANT_STATIC_METHOD ++ REDUNDANT_METHOD) ∧
    (QPath.resolved ["Wrapper", "from"]).methodName = some "from" ∧
    paths.FROM_TRAIT.getLast? = some "From" ∧
    check_expr cxYes []
        (.call 1 10 (.path 2 11 (.resolved ["Wrapper", "from"]) 2)
          (.cons (.path 3 12 (.typeRelative "x") 3) .nil)) =
      some ([], [⟨10, "identical conversion", 10,
                  "consider removing `From::from()`", "<expr>"⟩]) :=
  ⟨by decide, rfl, rfl,
   claim_C2_qualified_call_fires cxYes [] 1 10 2 11
     (.resolved ["Wrapper", "from"]) 2 (.path 3 12 (.typeRelative "x") 3)
     .nil 0 paths.FROM_TRAIT "from" "From" (by decide) rfl (by decide) rfl rfl
     rfl rfl rfl⟩

/-- C3: entering an error-propagation desugar match whose first arm's body
is an early return or loop break wrapping a call pushes the id of that
call's first argument onto the suppression stack and emits nothing there;
and any node carrying that id, visited while it tops the stack, is
returned from immediately with no analysis and no diagnostic — so the
desugared logical site is reported at most once, by the surviving
occurrence. -/
theorem claim_C3_desugar_push_and_skip (cx : Context) (st : List NodeId)
    (mi : NodeId) (msp : Span) (scrut armBody inner : Expr)
    (arms' : ExprList) (ji : NodeId) (jsp : Span) (ki : NodeId) (ksp : Span)
    (f a0 : Expr) (cargs' : ExprList)
    (harm : armBody = .ret ji jsp (.someE inner) ∨
            armBody = .break_ ji jsp (.someE inner))
    (hinner : inner = .call ki ksp f (.cons a0 cargs'))
    (hmac : cx.fromExpansion msp = false)
    (hnosup : st.head? ≠ some mi) :
    check_expr cx st (.match_ mi msp scrut (.cons armBody arms') .TryDesugar) =
      some (a0.id :: st, []) ∧
    ∀ n : Expr, n.id = a0.id →
      check_expr cx (a0.id :: st) n = some (a0.id :: st, []) := by
  constructor
  · subst hinner
    rcases harm with h | h <;> subst h <;>
      simp [check_expr, Expr.span, Expr.id, hmac, hnosup, ExprList.headE]
  · intro n hn
    exact check_expr_skip (by simp [hn])

/-- Witness for C3: the concrete desugar tree `exTry` pushes id 6, and the
synthetic duplicate call node with id 6 is skipped while 6 tops the
stack. -/
theorem claim_C3_witness :
    check_expr cxYes [] exTry = some ([6], []) ∧
    check_expr cxYes [6]
        (.call 6 15 (.path 7 16 (.typeRelative "g") 7)
          (.cons (.path 8 17 (.typeRelative "e") 8) .nil)) =
      some ([6], []) := by
  have h := claim_C3_desugar_push_and_skip cxYes [] 1 10
    (.path 2 11 (.typeRelative "r") 2)
    (.ret 3 12 (.someE
      (.call 4 13 (.path 5 14 (.typeRelative "f") 5)
        (.cons
          (.call 6 15 (.path 7 16 (.typeRelative "g") 7)
            (.cons (.path 8 17 (.typeRelative "e") 8) .nil))
          .nil))))
    (.call 4 13 (.path 5 14 (.typeRelative "f") 5)
      (.cons
        (.call 6 15 (.path 7 16 (.typeRelative "g") 7)
          (.cons (.path 8 17 (.typeRelative "e") 8) .nil))
        .nil))
    .nil 3 12 4 13 (.path 5 14 (.typeRelative "f") 5)
    (.call 6 15 (.path 7 16 (.typeRelative "g") 7)
      (.cons (.path 8 17 (.typeRelative "e") 8) .nil))
    .nil (Or.inl rfl) rfl rfl (by decide)
  exact ⟨h.1, h.2 _ rfl⟩

/-- C4: in either call shape, no diagnostic is emitted when the type
equality oracle does not report the inferred type of the whole expression
equal to that of the first argument; an oracle unable to decide is
modelled by `same_tys` answering `false`, so indeterminate cases also do
not fire. -/
theorem claim_C4_no_fire_on_unequal_types (cx : Context) (st : List NodeId)
    (i : NodeId) (sp : Span) (a0 : Expr)
    (hsame : cx.same_tys (cx.expr_ty i) (cx.expr_ty a0.id) = false) :
    (∀ (name : String) (rest : ExprList) (st' : List NodeId)
        (ds : List Diagnostic),
      check_expr cx st (.methodCall i sp name (.cons a0 rest)) =
        some (st', ds) → ds = []) ∧
    (∀ (callee : Expr) (rest : ExprList) (st' : List NodeId)
        (ds : List Diagnostic),
      check_expr cx st (.call i sp callee (.cons a0 rest)) =
        some (st', ds) → ds = []) := by
  constructor
  · intro name rest st' ds h
    rcases check_expr_methodCall_ds h with hds | hcm
    · exact hds
    · have hnil := @collectMethod_nofire cx i sp name a0 rest hsame
        REDUNDANT_METHOD
      rw [hcm] at hnil
      exact Option.some.inj hnil
  · intro callee rest st' ds h
    rcases check_expr_call_ds h with hds | ⟨pi, psp, q, hirId, d, _, _, hcs⟩
    · exact hds
    · exact @collectStatic_nofire cx i sp psp q a0 rest d hsame
        (REDUNDANT_STATIC_METHOD ++ REDUNDANT_METHOD) ds hcs

/-- Witness for C4: on the all-negative context (whose oracle never
reports equality), both `x.into()` and `From::from(x)` produce no
diagnostic. -/
theorem claim_C4_witness :
    cxNo.same_tys (cxNo.expr_ty 1) (cxNo.expr_ty 2) = false ∧
    (∀ st' ds, check_expr cxNo []
        (.methodCall 1 10 "into" (.cons (.path 2 11 (.typeRelative "x") 2) .nil)) =
        some (st', ds) → ds = []) ∧
    (∀ st' ds, check_expr cxNo []
        (.call 1 10 (.path 3 12 (.resolved ["Wrapper", "from"]) 3)
          (.cons (.path 2 11 (.typeRelative "x") 2) .nil)) =
        some (st', ds) → ds = []) := by
  have h := claim_C4_no_fire_on_unequal_types cxNo [] 1 10
    (.path 2 11 (.typeRelative "x") 2) rfl
  exact ⟨rfl, fun st' ds hh => h.1 "into" .nil st' ds hh,
    fun st' ds hh =>
      h.2 (.path 3 12 (.resolved ["Wrapper", "from"]) 3) .nil st' ds hh⟩

/-- C5: a node whose span is macro-expanded makes the enter callback
return before any analysis — stack unchanged, nothing emitted; hence a
subtree lying entirely in macro-expanded source yields no diagnostics at
all, whatever the oracle answers. -/
theorem claim_C5_macro_never_lints (cx : Context) :
    (∀ (st : List NodeId) (e : Expr), cx.fromExpansion e.span = true →
      check_expr cx st e = some (st, [])) ∧
    (∀ (st : List NodeId) (e : Expr),
      (∀ s ∈ spans e, cx.fromExpansion s = true) →
      ∃ st', runExpr cx st e = some (st', [])) :=
  ⟨fun _ _ h => check_expr_expansion h, fun st e hall => macE cx e hall st⟩

/-- Witness for C5: on the everything-is-macro context, the method call of
the C1 witness is skipped at enter and the whole `exTry` tree produces no
diagnostics, although every oracle answers positively. -/
theorem claim_C5_witness :
    cxExpanded.fromExpansion
      (Expr.methodCall 1 10 "into"
        (.cons (.path 2 11 (.typeRelative "x") 2) .nil)).span = true ∧
    check_expr cxExpanded []
        (.methodCall 1 10 "into" (.cons (.path 2 11 (.typeRelative "x") 2) .nil)) =
      some ([], []) ∧
    ∃ st', runExpr cxExpanded [] exTry = some (st', []) :=
  ⟨rfl,
   (claim_C5_macro_never_lints cxExpanded).1 []
     (.methodCall 1 10 "into" (.cons (.path 2 11 (.typeRelative "x") 2) .nil))
     rfl,
   (claim_C5_macro_never_lints cxExpanded).2 [] exTry (fun _ _ => rfl)⟩

/-- C6: the suppression stack is empty before a complete traversal and
empty again after it: on a well-formed tree with distinct node ids, a run
started on the empty stack succeeds and returns the empty stack — every
push of a desugar-arm argument id is matched by exactly one pop before
the traversal completes. -/
theorem claim_C6_stack_balanced (cx : Context) (e : Expr)
    (hwf : wf cx e = true) (hnd : (ids e).Nodup) :
    ∃ ds, runExpr cx [] e = some ([], ds) :=
  run_balanced hwf hnd

/-- Witness for C6: the concrete desugar tree `exTry`, which does push an
id mid-run, still ends with the empty stack. -/
theorem claim_C6_witness :
    wf cxYes exTry = true ∧ (ids exTry).Nodup ∧
    ∃ ds, runExpr cxYes [] exTry = some ([], ds) :=
  ⟨by decide, by decide, claim_C6_stack_balanced cxYes exTry (by decide) (by decide)⟩

/-- C7 counterexample: the claim says the top entry is consumed (popped)
at the enter step of a suppressed node.  On the concrete suppressed node
with id 5 and stack `[5]`, the enter callback returns with the stack still
`[5]` — it never returns the popped stack `[]`, for any diagnostics. -/
theorem claim_C7_counterexample :
    check_expr cxNo [5] (.path 5 0 (.typeRelative "x") 5) = some ([5], []) ∧
    ∀ ds, check_expr cxNo [5] (.path 5 0 (.typeRelative "x") 5) ≠
      some (([] : List NodeId), ds) := by
  constructor
  · rfl
  · intro ds h
    rw [show check_expr cxNo [5] (.path 5 0 (.typeRelative "x") 5) =
      some ([5], []) from rfl] at h
    simp at h

/-- C7, amended: on entering a node whose id tops the suppression stack
the node is returned from immediately without analysis and the stack is
left unchanged; the top entry is consumed (popped) at that node's exit
callback; every other exit leaves the stack unchanged, and the enter
callback of a non-match node never changes the stack — the only
stack-growing transition is the conditional push on entering a desugar
match. -/
theorem claim_C7_amended_pop_at_exit (cx : Context) (st : List NodeId)
    (e : Expr) :
    (st.head? = some e.id →
      check_expr cx st e = some (st, []) ∧ check_expr_post st e = st.tail) ∧
    (st.head? ≠ some e.id → check_expr_post st e = st) ∧
    (isMatchNode e = false → ∀ st' ds,
      check_expr cx st e = some (st', ds) → st' = st) := by
  refine ⟨fun h => ⟨check_expr_skip h, post_pop h⟩,
    fun h => by unfold check_expr_post; rw [if_neg h],
    fun hnm st' ds h => ?_⟩
  rcases check_expr_stack h with h1 | ⟨_, hmatch, _⟩
  · exact h1
  · rw [hnm] at hmatch
    exact absurd hmatch (by simp)

/-- Witness for C7 amended: on the suppressed node with id 5 the enter
leaves the stack `[5]` unchanged and the exit pops it; a non-matching exit
is a no-op; a non-match node's enter leaves the stack unchanged. -/
theorem claim_C7_amended_witness :
    (check_expr cxNo [5] (.path 5 0 (.typeRelative "x") 5) = some ([5], []) ∧
      check_expr_post [5] (.path 5 0 (.typeRelative "x") 5) = [] ) ∧
    check_expr_post [7] (.path 5 0 (.typeRelative "x") 5) = [7] ∧
    ∀ st' ds, check_expr cxNo [] (.path 5 0 (.typeRelative "x") 5) =
      some (st', ds) → st' = [] := by
  refine ⟨(claim_C7_amended_pop_at_exit cxNo [5]
      (.path 5 0 (.typeRelative "x") 5)).1 rfl,
    (claim_C7_amended_pop_at_exit cxNo [7]
      (.path 5 0 (.typeRelative "x") 5)).2.1 (by decide),
    (claim_C7_amended_pop_at_exit cxNo []
      (.path 5 0 (.typeRelative "x") 5)).2.2 rfl⟩

/-- C8: the pass is total over well-formed trees: the traversal never
aborts — in particular `arms[0]`, `args[0]` in either call shape, and the
last path segment are always accessed inside their domains — and every
failure to resolve shows up only as the rule not firing, never as an
abort. -/
theorem claim_C8_total (cx : Context) (e : Expr) (hwf : wf cx e = true)
    (st : List NodeId) :
    ∃ out, runExpr cx st e = some out :=
  totE cx e hwf st

/-- Witness for C8: the desugar tree `exTry` runs to completion on the
all-negative context, where no callee resolves and nothing fires. -/
theorem claim_C8_witness :
    wf cxNo exTry = true ∧ ∃ out, runExpr cxNo [] exTry = some out :=
  ⟨by decide, claim_C8_total cxNo exTry (by decide) []⟩

/-- C9: running the pass twice over the same tree and context yields the
same result: the only mutable state is the suppression stack, which
starts empty and is empty again after a full run, so a second run started
from the final stack of the first returns the identical diagnostic list
(same spans, same messages). -/
theorem claim_C9_idempotent (cx : Context) (e : Expr)
    (hwf : wf cx e = true) (hnd : (ids e).Nodup)
    (st1 : List NodeId) (ds1 : List Diagnostic)
    (h1 : runExpr cx [] e = some (st1, ds1)) :
    runExpr cx st1 e = some (st1, ds1) := by
  obtain ⟨ds, hds⟩ := run_balanced hwf hnd
  have hcomb := h1.symm.trans hds
  simp at hcomb
  obtain ⟨hst1, hds1⟩ := hcomb
  subst hst1
  exact h1

/-- Witness for C9: the first run over `exTry` ends on the empty stack,
and the second run from that stack returns the identical output. -/
theorem claim_C9_witness :
    ∃ st1 ds1, runExpr cxYes [] exTry = some (st1, ds1) ∧
      runExpr cxYes st1 exTry = some (st1, ds1) := by
  obtain ⟨⟨st1, ds1⟩, h1⟩ := totE cxYes exTry (by decide) []
  exact ⟨st1, ds1, h1,
    claim_C9_idempotent cxYes exTry (by decide) (by decide) st1 ds1 h1⟩

/-- C10: the method names across the static-factory table and the method
table — from, into, as_ref, as_mut, borrow, borrow_mut, by_ref — are
pairwise distinct, and consequently a qualified-call expression never
receives more than one diagnostic from the chained rule iteration. -/
theorem claim_C10_at_most_one_qualified (cx : Context) (st : List NodeId)
    (i : NodeId) (sp : Span) (callee : Expr) (args : ExprList) :
    (((REDUNDANT_STATIC_METHOD ++ REDUNDANT_METHOD).map Prod.snd).Nodup) ∧
    (∀ st' ds, check_expr cx st (.call i sp callee args) = some (st', ds) →
      ds.length ≤ 1) := by
  refine ⟨by decide, fun st' ds h => ?_⟩
  rcases check_expr_call_ds h with hds | ⟨pi, psp, q, hirId, d, _, _, hcs⟩
  · rw [hds]; simp
  · exact collectStatic_len (REDUNDANT_STATIC_METHOD ++ REDUNDANT_METHOD) ds
      (by decide) hcs

/-- Witness for C10: the table names are distinct, and the concrete
`Wrapper::from(x)` call of the C2 witness yields exactly one diagnostic,
satisfying the bound. -/
theorem claim_C10_witness :
    (((REDUNDANT_STATIC_METHOD ++ REDUNDANT_METHOD).map Prod.snd).Nodup) ∧
    ∀ st' ds, check_expr cxYes []
        (.call 1 10 (.path 2 11 (.resolved ["Wrapper", "from"]) 2)
          (.cons (.path 3 12 (.typeRelative "x") 3) .nil)) =
        some (st', ds) → ds.length ≤ 1 :=
  ⟨(claim_C10_at_most_one_qualified cxYes [] 1 10
      (.path 2 11 (.resolved ["Wrapper", "from"]) 2)
      (.cons (.path 3 12 (.typeRelative "x") 3) .nil)).1,
   fun st' ds h =>
    (claim_C10_at_most_one_qualified cxYes [] 1 10
      (.path 2 11 (.resolved ["Wrapper", "from"]) 2)
      (.cons (.path 3 12 (.typeRelative "x") 3) .nil)).2 st' ds h⟩
